import Mathlib

/-!
Shallow embedding of a two-resource (Users, Tasks) JSON REST API
(Express + Mongoose, files routes/users.js and routes/tasks.js) and proofs
about its referential-integrity synchronization.

Modelling conventions:
* The document store is a pair of lists (users, tasks).  MongoDB guarantees
  `_id` uniqueness via the primary index, so `findByIdAndUpdate` is rendered
  as a guarded map over the list, `deleteOne {_id}` as a filter, and saving a
  *new* document with an already-present id as a duplicate-key store error.
* Request bodies are records of `Option`-typed fields (`none` = field absent,
  i.e. JS `undefined`).  JS truthiness on string fields (`!x`, `x || d`) is
  modelled by `strFalsy` / `jsOrStr`.
* Host primitives `Number(string)`, `new Date(number)` and `new Date(string)`
  are modelled executably on the fragment the routes rely on: decimal /
  hexadecimal / Infinity numeric literals for `Number`, ECMA TimeClip plus
  truncation toward zero for `new Date(number)`, and ISO `YYYY-MM-DD` date
  strings for `new Date(string)`; inputs outside the fragment coerce to NaN
  (an invalid date), exactly the code path the spec claims they take.
-/

/-- Result of JS `Number(string)` coercion: NaN, a signed infinity, or a
finite value.  A finite value is the exact rational `m / 10 ^ k` (every
numeric literal in the modelled fragment is a decimal, so this scaled-decimal
form is exact and keeps all arithmetic on kernel-computable `Int`/`Nat`). -/
inductive JsNum where
  | nan
  | inf (neg : Bool)
  | fin (m : Int) (k : Nat)
deriving Repr, DecidableEq

/-- Loosely-typed JS value as it can appear in the `completed` body field. -/
inductive JsVal where
  | vNull
  | vBool (b : Bool)
  | vStr (s : String)
  | vNum (n : Int)
deriving Repr, DecidableEq

/-- JS falsiness of an optional string field: absent (`undefined`) or `""`. -/
def strFalsy : Option String → Bool
  | none => true
  | some s => s = ""

/-- JS `x || d` for an optional string field `x` and default `d`. -/
def jsOrStr (v : Option String) (d : String) : String :=
  match v with
  | none => d
  | some s => if s = "" then d else s

/-- ASCII lower-casing of one character (the fragment of JS `toLowerCase`
exercised by `parseBoolean`). -/
def asciiLower (c : Char) : Char :=
  if 65 ≤ c.toNat ∧ c.toNat ≤ 90 then Char.ofNat (c.toNat + 32) else c

/-- Model of the helper `parseBoolean(val, defaultVal)` in routes/tasks.js:
`undefined`/`null` give the default, booleans pass through, strings compare
case-insensitively against "true", anything else gives the default. -/
def parseBoolean (v : Option JsVal) (d : Bool) : Bool :=
  match v with
  | none => d
  | some .vNull => d
  | some (.vBool b) => b
  | some (.vStr s) => s.data.map asciiLower == "true".data
  | some (.vNum _) => d

/-- Value of a decimal digit character. -/
def digitVal (c : Char) : Nat := c.toNat - 48

/-- Value of a list of decimal digit characters, most significant first. -/
def decDigitsVal (cs : List Char) : Nat :=
  cs.foldl (fun a c => a * 10 + digitVal c) 0

/-- Hexadecimal digit test (0-9, a-f, A-F). -/
def isHexDigit (c : Char) : Bool :=
  c.isDigit || (97 ≤ c.toNat && c.toNat ≤ 102) || (65 ≤ c.toNat && c.toNat ≤ 70)

/-- Value of a hexadecimal digit character. -/
def hexVal (c : Char) : Nat :=
  if c.isDigit then c.toNat - 48
  else if c.toNat ≤ 70 then c.toNat - 55
  else c.toNat - 87

/-- Value of a list of hexadecimal digit characters, most significant first. -/
def hexDigitsVal (cs : List Char) : Nat :=
  cs.foldl (fun a c => a * 16 + hexVal c) 0

/-- Exponent part of a JS decimal literal (after the `e`/`E`): optional sign
followed by at least one digit. -/
def parseExpPart (cs : List Char) : Option Int :=
  let (sign, rest) :=
    match cs with
    | '+' :: r => ((1 : Int), r)
    | '-' :: r => ((-1 : Int), r)
    | r => ((1 : Int), r)
  if !rest.isEmpty && rest.all (·.isDigit) then some (sign * decDigitsVal rest) else none

/-- Scaling of the mantissa `m / 10 ^ k` by `10 ^ e`. -/
def applyExp (m : Int) (k : Nat) (e : Int) : Int × Nat :=
  if 0 ≤ e then (m * (10 : Int) ^ e.toNat, k) else (m, k + e.natAbs)

/-- Mantissa digits `ip . fp` followed by an optional exponent in `r`,
yielding the exact value of the literal as a scaled decimal `m / 10 ^ k`. -/
def parseWithExp (ip fp : List Char) (r : List Char) : Option (Int × Nat) :=
  let m : Int := decDigitsVal (ip ++ fp)
  let k : Nat := fp.length
  match r with
  | [] => some (m, k)
  | 'e' :: rest => (parseExpPart rest).map (applyExp m k)
  | 'E' :: rest => (parseExpPart rest).map (applyExp m k)
  | _ => none

/-- Unsigned JS decimal literal: `digits`, `digits.digits`, `digits.`,
`.digits`, each with an optional exponent; anything else is NaN. -/
def parseUnsignedDec (cs : List Char) : Option (Int × Nat) :=
  let p := cs.span (·.isDigit)
  match p.2 with
  | '.' :: rest =>
    let f := rest.span (·.isDigit)
    if p.1.isEmpty && f.1.isEmpty then none else parseWithExp p.1 f.1 f.2
  | _ => if p.1.isEmpty then none else parseWithExp p.1 [] p.2

/-- Model of JS `Number(s)` on strings, on the fragment relevant here:
whitespace-trimmed; empty string is 0; `0x`/`0X` hexadecimal literals;
optional sign followed by `Infinity` or a decimal literal with optional
fraction and exponent.  Everything else (in particular `"not-a-date"`)
coerces to NaN.  (Binary/octal literals and IEEE-754 rounding above 2^53
are outside the modelled fragment; no claim depends on them.) -/
def jsWhitespace (c : Char) : Bool :=
  c = ' ' || c = '\t' || c = '\n' || c = '\r'

/-- Leading/trailing-whitespace trim on the character list of a string
(the StringToNumber grammar strips surrounding whitespace). -/
def jsTrim (cs : List Char) : List Char :=
  ((cs.dropWhile jsWhitespace).reverse.dropWhile jsWhitespace).reverse

def jsStringToNumber (s : String) : JsNum :=
  let t := jsTrim s.data
  if t = [] then .fin 0 0
  else
    match t with
    | '0' :: 'x' :: rest =>
      if !rest.isEmpty && rest.all isHexDigit then .fin (hexDigitsVal rest : Int) 0 else .nan
    | '0' :: 'X' :: rest =>
      if !rest.isEmpty && rest.all isHexDigit then .fin (hexDigitsVal rest : Int) 0 else .nan
    | cs =>
      let sb : Bool × List Char :=
        match cs with
        | '-' :: r => (true, r)
        | '+' :: r => (false, r)
        | r => (false, r)
      if sb.2 = "Infinity".toList then .inf sb.1
      else
        match parseUnsignedDec sb.2 with
        | some mk => .fin (if sb.1 then -mk.1 else mk.1) mk.2
        | none => .nan

/-- ECMA ToIntegerOrInfinity on the finite value `m / 10 ^ k`: truncation
toward zero, which is exactly `Int.tdiv`. -/
def jsTrunc (m : Int) (k : Nat) : Int := m.tdiv ((10 : Int) ^ k)

/-- ECMA TimeClip on the finite value `m / 10 ^ k`: times beyond ±8.64e15 ms
are invalid, otherwise the time value is truncated toward zero.
(`|m / 10 ^ k| ≤ 8.64e15` is stated integrally.) -/
def timeClip (m : Int) (k : Nat) : Option Int :=
  if m.natAbs ≤ 8640000000000000 * 10 ^ k then some (jsTrunc m k) else none

/-- Model of `new Date(n).getTime()` for the result `n` of a `Number`
coercion: NaN and the infinities give an invalid date. -/
def dateFromNumber : JsNum → Option Int
  | .nan => none
  | .inf _ => none
  | .fin m k => timeClip m k

/-- Days from the civil epoch 1970-01-01 for year/month/day, linear in the
day so that out-of-range days roll over exactly as ECMA MakeDay does.
All intermediate divisions are on nonnegative values. -/
def daysFromCivil (y m d : Int) : Int :=
  let y' := if m ≤ 2 then y - 1 else y
  let era := (if 0 ≤ y' then y' else y' - 399).tdiv 400
  let yoe := y' - era * 400
  let mp := (m + 9) % 12
  let doy := (153 * mp + 2).tdiv 5 + d - 1
  let doe := yoe * 365 + yoe.tdiv 4 - yoe.tdiv 100 + doy
  era * 146097 + doe - 719468

/-- Model of `new Date(s).getTime()` for a string argument, on the ISO
`YYYY-MM-DD` date-only fragment (interpreted as UTC midnight, month 01-12
and day 01-31 with ECMA MakeDay roll-over).  Strings outside the fragment
give an invalid date — in particular `"not-a-date"`. -/
def jsDateFromString (s : String) : Option Int :=
  match s.toList with
  | [y1, y2, y3, y4, '-', m1, m2, '-', d1, d2] =>
    if [y1, y2, y3, y4, m1, m2, d1, d2].all (·.isDigit) then
      let y : Int := decDigitsVal [y1, y2, y3, y4]
      let m : Int := decDigitsVal [m1, m2]
      let d : Int := decDigitsVal [d1, d2]
      if 1 ≤ m ∧ m ≤ 12 ∧ 1 ≤ d ∧ d ≤ 31 then
        some (daysFromCivil y m d * 86400000)
      else none
    else none
  | _ => none

/-- Deadline parsing pipeline of POST /tasks (routes/tasks.js lines 74-81)
and PUT /tasks/:id (lines 167-174): if `Number(deadline)` is not NaN the
value is `new Date(Number(deadline))`, otherwise `new Date(deadline)`;
`none` is an invalid date, answered with the 400 invalid-deadline error. -/
def parseDeadline (s : String) : Option Int :=
  match jsStringToNumber s with
  | .nan => jsDateFromString s
  | n => dateFromNumber n

/-- Sanity anchors for the deadline-parsing model on concrete inputs:
epoch-millisecond strings (also negative or decimal, truncated toward
zero), ISO date strings, and rejected values. -/
theorem parseDeadline_anchors :
    parseDeadline "1700000000000" = some 1700000000000 ∧
    parseDeadline "-5" = some (-5) ∧
    parseDeadline "3.9" = some 3 ∧
    parseDeadline "2020-01-01" = some 1577836800000 ∧
    jsDateFromString "2020-01-01" = some 1577836800000 ∧
    parseDeadline "not-a-date" = none ∧
    parseDeadline "Infinity" = none := by
  refine ⟨by decide, by decide, by decide, by decide, by decide, by decide, by decide⟩

namespace Mp3

/-! ## Data model and document store -/

/-- User document (models/user schema as used by the routes). `dateCreated`
is `Option Int`: `some` a time value, `none` an invalid date. -/
structure User where
  id : String
  name : String
  email : String
  pendingTasks : List String
  dateCreated : Option Int
deriving Repr, DecidableEq

/-- Task document (models/task schema as used by the routes). -/
structure Task where
  id : String
  name : String
  description : String
  deadline : Int
  completed : Bool
  assignedUser : String
  assignedUserName : String
deriving Repr, DecidableEq

/-- The shared document store: the two collections. -/
structure Store where
  users : List User
  tasks : List Task
deriving Repr, DecidableEq

/-- Error taxonomy of the routes (each constructor corresponds to one
response body in the source). -/
inductive ApiErr where
  | missingFields
  | invalidDeadline
  | assignedUserNotFound
  | duplicateEmail
  | notFound
  | duplicateId
deriving Repr, DecidableEq

/-- HTTP status attached to each error response in the source
(a duplicate `_id` on insert is a store error, surfaced as 500). -/
def statusOf : ApiErr → Nat
  | .missingFields => 400
  | .invalidDeadline => 400
  | .assignedUserNotFound => 400
  | .duplicateEmail => 400
  | .notFound => 404
  | .duplicateId => 500

/-- Model of `User.findById(uid)`. -/
def findUser (s : Store) (uid : String) : Option User :=
  s.users.find? (fun u => u.id == uid)

/-- Model of `Task.findById(tid)`. -/
def findTask (s : Store) (tid : String) : Option Task :=
  s.tasks.find? (fun t => t.id == tid)

/-- Per-user effect of `User.findByIdAndUpdate(uid, {$addToSet: {pendingTasks: x}})`
(`_id` is unique, so the guarded map touches at most the one user). -/
def addPendingFn (uid x : String) (u : User) : User :=
  if u.id = uid then
    (if x ∈ u.pendingTasks then u else { u with pendingTasks := u.pendingTasks ++ [x] })
  else u

/-- Per-user effect of `User.findByIdAndUpdate(uid, {$pull: {pendingTasks: x}})`. -/
def pullPendingFn (uid x : String) (u : User) : User :=
  if u.id = uid then { u with pendingTasks := u.pendingTasks.filter (fun i => i != x) }
  else u

def addToSetPending (s : Store) (uid x : String) : Store :=
  { s with users := s.users.map (addPendingFn uid x) }

def pullPending (s : Store) (uid x : String) : Store :=
  { s with users := s.users.map (pullPendingFn uid x) }

/-- Saving a *new* task document: MongoDB's unique `_id` index rejects a
duplicate id with a store error. -/
def insertTask (s : Store) (t : Task) : Except ApiErr Store :=
  if s.tasks.any (fun x => x.id == t.id) then .error .duplicateId
  else .ok { s with tasks := s.tasks ++ [t] }

/-- Saving a *new* user document, same duplicate-`_id` behaviour. -/
def insertUser (s : Store) (u : User) : Except ApiErr Store :=
  if s.users.any (fun x => x.id == u.id) then .error .duplicateId
  else .ok { s with users := s.users ++ [u] }

/-- Per-task effect of saving a fetched task document back (`task.save()`):
the document with this `_id` is replaced. -/
def updateTaskFn (tid : String) (nt : Task) (t : Task) : Task :=
  if t.id = tid then nt else t

def updateTask (s : Store) (tid : String) (nt : Task) : Store :=
  { s with tasks := s.tasks.map (updateTaskFn tid nt) }

/-- Per-user effect of saving a fetched user document back (`user.save()`). -/
def updateUserFn (uid : String) (nu : User) (u : User) : User :=
  if u.id = uid then nu else u

def updateUser (s : Store) (uid : String) (nu : User) : Store :=
  { s with users := s.users.map (updateUserFn uid nu) }

/-! ## Request bodies -/

/-- Body value for `pendingTasks`: a scalar is coerced to a one-element
array by the routes (`if (!Array.isArray(p)) p = [p]`). -/
inductive PendingVal where
  | scalar (s : String)
  | arr (l : List String)
deriving Repr, DecidableEq

/-- Normalization `let p = req.body.pendingTasks || []` followed by the
array coercion `if (!Array.isArray(p)) p = [p]` and `.map(String)` (identity
on strings).  An empty-string scalar is falsy, so it yields `[]`. -/
def normalizePending : Option PendingVal → List String
  | none => []
  | some (.scalar s) => if s = "" then [] else [s]
  | some (.arr l) => l

/-- POST/PUT /users request body (`dateCreated` is read only by PUT). -/
structure UserBody where
  name : Option String
  email : Option String
  pendingTasks : Option PendingVal
  dateCreated : Option String
deriving Repr, DecidableEq

/-- POST/PUT /tasks request body. -/
structure TaskBody where
  name : Option String
  description : Option String
  deadline : Option String
  completed : Option JsVal
  assignedUser : Option String
  assignedUserName : Option String
deriving Repr, DecidableEq

/-! ## Route handlers -/

/-- Lines 88-97 of routes/tasks.js (and the identical lines 183-192 of the
PUT handler): an empty assignment forces "unassigned", a non-empty one must
name an existing user, whose live name is used. -/
def resolveAssignee (s : Store) (assignedUser : String) : Except ApiErr String :=
  if assignedUser = "" then .ok "unassigned"
  else
    match findUser s assignedUser with
    | none => .error .assignedUserNotFound
    | some u => .ok u.name

/-- POST /api/tasks (routes/tasks.js lines 64-123).  `freshId` is the
`_id` MongoDB generates for the new document. -/
def taskPost (s : Store) (b : TaskBody) (freshId : String) : Except ApiErr (Store × Task) :=
  if strFalsy b.name || strFalsy b.deadline then .error .missingFields
  else
    match parseDeadline (b.deadline.getD "") with
    | none => .error .invalidDeadline
    | some dl =>
      let completed := parseBoolean b.completed false
      let assignedUser := jsOrStr b.assignedUser ""
      -- line 86 computes `req.body.assignedUserName || "unassigned"`, but both
      -- branches of lines 89-97 overwrite it, so the client value is dead.
      match resolveAssignee s assignedUser with
      | .error e => .error e
      | .ok assignedUserName =>
        let task : Task :=
          { id := freshId, name := b.name.getD "",
            description := jsOrStr b.description "",
            deadline := dl, completed := completed,
            assignedUser := assignedUser, assignedUserName := assignedUserName }
        match insertTask s task with
        | .error e => .error e
        | .ok s1 =>
          let s2 :=
            if assignedUser ≠ "" ∧ completed = false then addToSetPending s1 assignedUser task.id
            else s1
          .ok (s2, task)

/-- Intermediate state of PUT /api/tasks/:id after the task document itself
has been saved (routes/tasks.js line 201), before the two pendingTasks
reconciliation writes. -/
structure TaskPutMid where
  s1 : Store
  oldAssignedUser : String
  oldCompleted : Bool
  task : Task
deriving Repr, DecidableEq

/-- PUT /api/tasks/:id, lines 151-203: find, validate, recompute the fields
and save the task. -/
def taskPutCore (s : Store) (tid : String) (b : TaskBody) : Except ApiErr TaskPutMid :=
  match findTask s tid with
  | none => .error .notFound
  | some existingTask =>
    if strFalsy b.name || strFalsy b.deadline then .error .missingFields
    else
      match parseDeadline (b.deadline.getD "") with
      | none => .error .invalidDeadline
      | some dl =>
        let oldAssignedUser := existingTask.assignedUser
        let oldCompleted := existingTask.completed
        let completed := parseBoolean b.completed oldCompleted
        let assignedUser :=
          match b.assignedUser with
          | some v => v
          | none => oldAssignedUser
        -- line 181 computes `req.body.assignedUserName || existing`, but both
        -- branches of lines 183-192 overwrite it, so the client value is dead.
        match resolveAssignee s assignedUser with
        | .error e => .error e
        | .ok assignedUserName =>
          let newTask : Task :=
            { existingTask with
              name := b.name.getD "",
              description := jsOrStr b.description existingTask.description,
              deadline := dl, completed := completed,
              assignedUser := assignedUser, assignedUserName := assignedUserName }
          .ok { s1 := updateTask s tid newTask,
                oldAssignedUser := oldAssignedUser, oldCompleted := oldCompleted,
                task := newTask }

/-- Line 209 of routes/tasks.js. -/
def shouldRemovePending (m : TaskPutMid) : Bool :=
  (m.oldAssignedUser != m.task.assignedUser) || m.oldCompleted || m.task.completed
    || (m.task.assignedUser == "")

/-- Step 1 of the PUT reconciliation (lines 205-216): conditional `$pull`
from the prior assignee. -/
def taskPutRemovePhase (m : TaskPutMid) : Store :=
  if m.oldAssignedUser ≠ "" ∧ shouldRemovePending m = true then
    pullPending m.s1 m.oldAssignedUser m.task.id
  else m.s1

/-- Step 2 of the PUT reconciliation (lines 218-224): conditional
`$addToSet` on the current assignee. -/
def taskPutAddPhase (m : TaskPutMid) (s2 : Store) : Store :=
  if m.task.assignedUser ≠ "" ∧ m.task.completed = false then
    addToSetPending s2 m.task.assignedUser m.task.id
  else s2

/-- PUT /api/tasks/:id (routes/tasks.js lines 151-231). -/
def taskPut (s : Store) (tid : String) (b : TaskBody) : Except ApiErr (Store × Task) :=
  match taskPutCore s tid b with
  | .error e => .error e
  | .ok m => .ok (taskPutAddPhase m (taskPutRemovePhase m), m.task)

/-- DELETE /api/tasks/:id (routes/tasks.js lines 234-259).  `deleteOne` on
the unique `_id` is a filter. -/
def taskDelete (s : Store) (tid : String) : Except ApiErr Store :=
  match findTask s tid with
  | none => .error .notFound
  | some task =>
    let s1 := if task.assignedUser ≠ "" then pullPending s task.assignedUser task.id else s
    .ok { s1 with tasks := s1.tasks.filter (fun t => t.id != tid) }

/-- Modelled from the spec: models/user.js is not under src/; per the spec
its schema defaults `dateCreated` to the creation time ("timestamp,
defaults to creation time"), represented here by the `now` parameter. -/
def defaultDateCreated (now : Int) : Option Int := some now

/-- POST /api/users (routes/users.js lines 58-88).  `freshId` is the
generated `_id`, `now` the creation time used by the schema default;
`req.body.dateCreated` is not read here. -/
def userPost (s : Store) (b : UserBody) (freshId : String) (now : Int) :
    Except ApiErr (Store × User) :=
  if strFalsy b.name || strFalsy b.email then .error .missingFields
  else if s.users.any (fun u => u.email == b.email.getD "") then .error .duplicateEmail
  else
    let user : User :=
      { id := freshId, name := b.name.getD "", email := b.email.getD "",
        pendingTasks := normalizePending b.pendingTasks,
        dateCreated := defaultDateCreated now }
    match insertUser s user with
    | .error e => .error e
    | .ok s1 => .ok (s1, user)

/-- Per-task effect of the `tasksToAdd` bulk update of PUT /users/:id
(routes/users.js lines 161-166): `updateMany {_id $in tasksToAdd}`. -/
def userPutAddFn (userId nm : String) (tasksToAdd : List String) (t : Task) : Task :=
  if t.id ∈ tasksToAdd then
    { t with assignedUser := userId, assignedUserName := nm, completed := false }
  else t

/-- Per-task effect of the `tasksToRemove` bulk update of PUT /users/:id
(lines 168-173): `updateMany {_id $in tasksToRemove, assignedUser: userId}`. -/
def userPutRemoveFn (userId : String) (tasksToRemove : List String) (t : Task) : Task :=
  if t.id ∈ tasksToRemove ∧ t.assignedUser = userId then
    { t with assignedUser := "", assignedUserName := "unassigned" }
  else t

/-- PUT /api/users/:id (routes/users.js lines 116-180). -/
def userPut (s : Store) (uid : String) (b : UserBody) : Except ApiErr (Store × User) :=
  if strFalsy b.name || strFalsy b.email then .error .missingFields
  else
    match findUser s uid with
    | none => .error .notFound
    | some user =>
      if s.users.any (fun u => u.email == b.email.getD "" && u.id != uid) then
        .error .duplicateEmail
      else
        let newPendingTasks := normalizePending b.pendingTasks
        let oldPendingTasks := user.pendingTasks
        let user' : User :=
          { user with
            name := b.name.getD "", email := b.email.getD "",
            pendingTasks := newPendingTasks,
            dateCreated :=
              match b.dateCreated with
              | none => user.dateCreated
              | some d => if d = "" then user.dateCreated else jsDateFromString d }
        let s1 := updateUser s uid user'
        let userId := user.id
        let tasksToAdd := newPendingTasks.filter (fun i => !oldPendingTasks.contains i)
        let tasksToRemove := oldPendingTasks.filter (fun i => !newPendingTasks.contains i)
        let s2 :=
          if tasksToAdd.length ≠ 0 then
            { s1 with tasks := s1.tasks.map (userPutAddFn userId user'.name tasksToAdd) }
          else s1
        let s3 :=
          if tasksToRemove.length ≠ 0 then
            { s2 with tasks := s2.tasks.map (userPutRemoveFn userId tasksToRemove) }
          else s2
        .ok (s3, user')

/-- DELETE /api/users/:id (routes/users.js lines 183-204). -/
def userDelete (s : Store) (uid : String) : Except ApiErr Store :=
  match findUser s uid with
  | none => .error .notFound
  | some _ =>
    let s1 :=
      { s with
        tasks := s.tasks.map (fun (t : Task) =>
          if t.assignedUser = uid then
            { t with assignedUser := "", assignedUserName := "unassigned" }
          else t) }
    .ok { s1 with users := s1.users.filter (fun u => u.id != uid) }

/-! ## List endpoints (GET /users, GET /tasks) -/

/-- The find/sort/skip/limit pipeline shared by both list endpoints, over
already-parsed parameters: `whereP` is the parsed `where` filter as the
store evaluates it, `sortF` the reordering the parsed `sort` spec induces,
`skip`/`limit` are `parseInt` results (`none` = parameter absent).
`if (skip)` / `if (limit)` make the value 0 behave as absent. -/
def listQuery {α : Type} (docs : List α) (whereP : α → Bool)
    (sortF : Option (List α → List α)) (skip : Option Int) (limit : Option Int) : List α :=
  let r := docs.filter whereP
  let r := match sortF with | some f => f r | none => r
  let r :=
    match skip with
    | some k => if k ≠ 0 then r.drop k.toNat else r
    | none => r
  match limit with
  | some l => if l ≠ 0 then r.take l.natAbs else r
  | none => r

/-- GET /api/users (routes/users.js lines 19-55): no default limit. -/
def usersGet (users : List User) (whereP : User → Bool)
    (sortF : Option (List User → List User)) (skip : Option Int) (limit : Option Int) :
    List User :=
  listQuery users whereP sortF skip limit

/-- GET /api/tasks (routes/tasks.js lines 25-61): absent limit defaults
to 100 (line 31). -/
def tasksGet (tasks : List Task) (whereP : Task → Bool)
    (sortF : Option (List Task → List Task)) (skip : Option Int) (limit : Option Int) :
    List Task :=
  listQuery tasks whereP sortF skip (some (limit.getD 100))

/-! ## Operations and invariants -/

/-- One API mutation, as dispatched by the routers. -/
inductive ApiOp where
  | userPostOp (b : UserBody) (freshId : String) (now : Int)
  | userPutOp (uid : String) (b : UserBody)
  | userDeleteOp (uid : String)
  | taskPostOp (b : TaskBody) (freshId : String)
  | taskPutOp (tid : String) (b : TaskBody)
  | taskDeleteOp (tid : String)
deriving Repr, DecidableEq

/-- Effect of one operation on the store (payloads dropped). -/
def applyOp (s : Store) : ApiOp → Except ApiErr Store
  | .userPostOp b fid now => (userPost s b fid now).map (·.1)
  | .userPutOp uid b => (userPut s uid b).map (·.1)
  | .userDeleteOp uid => userDelete s uid
  | .taskPostOp b fid => (taskPost s b fid).map (·.1)
  | .taskPutOp tid b => (taskPut s tid b).map (·.1)
  | .taskDeleteOp tid => taskDelete s tid

/-- A sequence of operations, each of which must succeed. -/
def runOps (s : Store) : List ApiOp → Except ApiErr Store
  | [] => .ok s
  | op :: rest =>
    match applyOp s op with
    | .error e => .error e
    | .ok s1 => runOps s1 rest

/-- Membership test in the Task-Ledger subset of the operations. -/
def isTaskOp : ApiOp → Bool
  | .taskPostOp _ _ => true
  | .taskPutOp _ _ => true
  | .taskDeleteOp _ => true
  | _ => false

/-- Store sanity delivered by MongoDB itself: `_id` values are unique in
each collection and never empty (an ObjectId string is non-empty). -/
def wellFormed (s : Store) : Prop :=
  (s.tasks.map Task.id).Nodup ∧ (s.users.map User.id).Nodup ∧
    ∀ u ∈ s.users, u.id ≠ ""

/-- The pendingTasks half of the spec's bidirectional-consistency invariant:
every User's `pendingTasks` holds exactly the ids of the incomplete tasks
assigned to that User. -/
def pendingInv (s : Store) : Prop :=
  ∀ u ∈ s.users,
    (∀ tid ∈ u.pendingTasks,
      ∃ t ∈ s.tasks, t.id = tid ∧ t.assignedUser = u.id ∧ t.completed = false) ∧
    (∀ t ∈ s.tasks, t.assignedUser = u.id → t.completed = false → t.id ∈ u.pendingTasks)

/-- The assignedUserName half of the invariant: every task's denormalized
name matches the live record of its assignee, or is "unassigned". -/
def nameInv (s : Store) : Prop :=
  ∀ t ∈ s.tasks,
    (t.assignedUser = "" → t.assignedUserName = "unassigned") ∧
    (t.assignedUser ≠ "" →
      ∃ u ∈ s.users, u.id = t.assignedUser ∧ t.assignedUserName = u.name)

/-! ## Decidability of the invariants on concrete stores -/

instance (s : Store) : Decidable (wellFormed s) := by
  unfold wellFormed; infer_instance

instance (s : Store) : Decidable (pendingInv s) := by
  unfold pendingInv; infer_instance

instance (s : Store) : Decidable (nameInv s) := by
  unfold nameInv; infer_instance

/-! ## Helper lemmas about the store primitives -/

theorem addPendingFn_id (uid x : String) (u : User) : (addPendingFn uid x u).id = u.id := by
  unfold addPendingFn
  split
  · split <;> rfl
  · rfl

theorem addPendingFn_name (uid x : String) (u : User) :
    (addPendingFn uid x u).name = u.name := by
  unfold addPendingFn
  split
  · split <;> rfl
  · rfl

theorem pullPendingFn_id (uid x : String) (u : User) : (pullPendingFn uid x u).id = u.id := by
  unfold pullPendingFn; split <;> rfl

theorem pullPendingFn_name (uid x : String) (u : User) :
    (pullPendingFn uid x u).name = u.name := by
  unfold pullPendingFn; split <;> rfl

theorem mem_addPendingFn (uid x tid : String) (u : User) :
    tid ∈ (addPendingFn uid x u).pendingTasks ↔
      (tid ∈ u.pendingTasks ∨ (u.id = uid ∧ tid = x)) := by
  unfold addPendingFn
  by_cases h : u.id = uid
  · simp only [h, if_true]
    by_cases hx : x ∈ u.pendingTasks
    · simp only [hx, if_true]
      constructor
      · exact fun hm => Or.inl hm
      · rintro (hm | ⟨-, rfl⟩) <;> [exact hm; exact hx]
    · simp [hx, List.mem_append]
  · simp [h]

theorem mem_pullPendingFn (uid x tid : String) (u : User) :
    tid ∈ (pullPendingFn uid x u).pendingTasks ↔
      (tid ∈ u.pendingTasks ∧ (u.id = uid → tid ≠ x)) := by
  unfold pullPendingFn
  by_cases h : u.id = uid
  · simp [h, List.mem_filter]
  · simp [h]

theorem find?_user_eq (s : Store) (uid : String) (u : User) (h : findUser s uid = some u) :
    u ∈ s.users ∧ u.id = uid := by
  unfold findUser at h
  refine ⟨List.mem_of_find?_eq_some h, ?_⟩
  have := List.find?_some h
  simpa using this

theorem find?_task_eq (s : Store) (tid : String) (t : Task) (h : findTask s tid = some t) :
    t ∈ s.tasks ∧ t.id = tid := by
  unfold findTask at h
  refine ⟨List.mem_of_find?_eq_some h, ?_⟩
  have := List.find?_some h
  simpa using this

/-- Uniqueness of the witness for an id among tasks with nodup ids. -/
theorem rhs_unique (tasks : List Task) (hn : (tasks.map Task.id).Nodup)
    (t0 : Task) (h0 : t0 ∈ tasks) (P : Task → Prop) :
    (∃ t ∈ tasks, t.id = t0.id ∧ P t) ↔ P t0 := by
  constructor
  · rintro ⟨t, ht, hid, hP⟩
    have : t = t0 := by
      have := List.inj_on_of_nodup_map hn
      exact this ht h0 hid
    exact this ▸ hP
  · exact fun h => ⟨t0, h0, rfl, h⟩

/-- Effect of an in-place task save on the id-indexed existentials. -/
theorem rhs_updateTask (tasks : List Task) (tid : String) (nt : Task)
    (t0 : Task) (h0 : t0 ∈ tasks) (ht0 : t0.id = tid)
    (hnt : nt.id = tid) (tid' : String) (P : Task → Prop) :
    (∃ t ∈ tasks.map (updateTaskFn tid nt), t.id = tid' ∧ P t) ↔
      (if tid' = tid then P nt else ∃ t ∈ tasks, t.id = tid' ∧ P t) := by
  constructor
  · rintro ⟨t, ht, hid, hP⟩
    obtain ⟨t1, ht1, rfl⟩ := List.mem_map.mp ht
    unfold updateTaskFn at hid hP
    by_cases h1 : t1.id = tid
    · simp only [h1, if_true] at hid hP
      rw [hnt] at hid
      simp [← hid, hP]
    · simp only [h1, if_false] at hid hP
      have : tid' ≠ tid := by rw [← hid]; exact h1
      simp only [this, if_false]
      exact ⟨t1, ht1, hid, hP⟩
  · intro h
    by_cases he : tid' = tid
    · simp only [he, if_true] at h
      refine ⟨nt, List.mem_map.mpr ⟨t0, h0, ?_⟩, by rw [hnt, he], h⟩
      unfold updateTaskFn; simp [ht0]
    · simp only [he, if_false] at h
      obtain ⟨t, ht, hid, hP⟩ := h
      refine ⟨t, List.mem_map.mpr ⟨t, ht, ?_⟩, hid, hP⟩
      unfold updateTaskFn
      have : t.id ≠ tid := by rw [hid]; exact he
      simp [this]

/-- The id map of tasks is unchanged by an in-place save. -/
theorem ids_updateTask (tasks : List Task) (tid : String) (nt : Task) (hnt : nt.id = tid) :
    (tasks.map (updateTaskFn tid nt)).map Task.id = tasks.map Task.id := by
  rw [List.map_map]
  apply List.map_congr_left
  intro t _
  unfold updateTaskFn
  by_cases h : t.id = tid <;> simp [h, Function.comp, hnt]

theorem insertTask_ok (s : Store) (t : Task) (s1 : Store) (h : insertTask s t = .ok s1) :
    (∀ x ∈ s.tasks, x.id ≠ t.id) ∧ s1 = { s with tasks := s.tasks ++ [t] } := by
  unfold insertTask at h
  split at h
  · simp at h
  next hany =>
    refine ⟨?_, by injection h with h1; exact h1.symm⟩
    intro x hx hid
    exact hany (by simp only [List.any_eq_true]; exact ⟨x, hx, by simpa using hid⟩)

theorem insertUser_ok (s : Store) (u : User) (s1 : Store) (h : insertUser s u = .ok s1) :
    (∀ x ∈ s.users, x.id ≠ u.id) ∧ s1 = { s with users := s.users ++ [u] } := by
  unfold insertUser at h
  split at h
  · simp at h
  next hany =>
    refine ⟨?_, by injection h with h1; exact h1.symm⟩
    intro x hx hid
    exact hany (by simp only [List.any_eq_true]; exact ⟨x, hx, by simpa using hid⟩)

theorem wf_insertTask (s : Store) (task : Task) (hwf : wellFormed s)
    (hfresh : ∀ x ∈ s.tasks, x.id ≠ task.id) :
    wellFormed { s with tasks := s.tasks ++ [task] } := by
  obtain ⟨h1, h2, h3⟩ := hwf
  refine ⟨?_, h2, h3⟩
  simp only [List.map_append, List.map_cons, List.map_nil]
  rw [List.nodup_append]
  refine ⟨h1, List.nodup_singleton _, ?_⟩
  intro a ha hb
  simp only [List.mem_singleton] at hb
  obtain ⟨x, hx, rfl⟩ := List.mem_map.mp ha
  exact hfresh x hx (hb ▸ rfl)

/-- An id-preserving rewrite of the user collection keeps the user half of
`wellFormed`. -/
theorem wf_usersMap (s : Store) (f : User → User) (hf : ∀ u, (f u).id = u.id)
    (hwf : wellFormed s) : wellFormed { s with users := s.users.map f } := by
  obtain ⟨h1, h2, h3⟩ := hwf
  refine ⟨h1, ?_, ?_⟩
  · rw [List.map_map]
    have : (User.id ∘ f) = User.id := funext fun u => hf u
    rw [this]
    exact h2
  · intro u hu
    obtain ⟨v, hv, rfl⟩ := List.mem_map.mp hu
    rw [hf]
    exact h3 v hv

theorem pendingInv_post_add (s : Store) (task : Task) (hpi : pendingInv s)
    (hfresh : ∀ x ∈ s.tasks, x.id ≠ task.id) (hc : task.completed = false) :
    pendingInv (addToSetPending { s with tasks := s.tasks ++ [task] }
      task.assignedUser task.id) := by
  intro u' hu'
  obtain ⟨u, hu, rfl⟩ := List.mem_map.mp hu'
  constructor
  · intro tid htid
    rw [mem_addPendingFn] at htid
    rcases htid with hold | ⟨huid, rfl⟩
    · obtain ⟨t, ht, ha, hb, hcc⟩ := (hpi u hu).1 tid hold
      exact ⟨t, List.mem_append_left _ ht, ha, by rw [addPendingFn_id]; exact hb, hcc⟩
    · exact ⟨task, List.mem_append_right _ (by simp), rfl,
        by rw [addPendingFn_id, huid], hc⟩
  · intro t ht hta htc
    rw [mem_addPendingFn]
    rw [addPendingFn_id] at hta
    rcases List.mem_append.mp ht with hold | hnew
    · exact Or.inl ((hpi u hu).2 t hold hta htc)
    · simp only [List.mem_singleton] at hnew
      subst hnew
      exact Or.inr ⟨hta.symm, rfl⟩

theorem pendingInv_post_noadd (s : Store) (task : Task) (hpi : pendingInv s)
    (hfresh : ∀ x ∈ s.tasks, x.id ≠ task.id)
    (hcond : task.assignedUser = "" ∨ task.completed = true)
    (hids : ∀ u ∈ s.users, u.id ≠ "") :
    pendingInv { s with tasks := s.tasks ++ [task] } := by
  intro u hu
  constructor
  · intro tid htid
    obtain ⟨t, ht, ha, hb, hcc⟩ := (hpi u hu).1 tid htid
    exact ⟨t, List.mem_append_left _ ht, ha, hb, hcc⟩
  · intro t ht hta htc
    rcases List.mem_append.mp ht with hold | hnew
    · exact (hpi u hu).2 t hold hta htc
    · simp only [List.mem_singleton] at hnew
      subst hnew
      rcases hcond with he | he
      · exact absurd (hta.symm.trans he) (hids u hu)
      · rw [htc] at he; exact absurd he (by simp)

theorem taskPost_preserves (s : Store) (b : TaskBody) (fid : String) (s' : Store) (t' : Task)
    (hwf : wellFormed s) (hpi : pendingInv s) (h : taskPost s b fid = .ok (s', t')) :
    wellFormed s' ∧ pendingInv s' := by
  unfold taskPost at h
  split at h
  · simp at h
  dsimp only at h
  split at h
  · simp at h
  split at h
  · simp at h
  split at h
  · simp at h
  next hins =>
  obtain ⟨hfresh, rfl⟩ := insertTask_ok _ _ _ hins
  split at h
  next hcond =>
    rw [Except.ok.injEq, Prod.mk.injEq] at h
    obtain ⟨h1, h2⟩ := h
    subst h1; subst h2
    refine ⟨wf_usersMap _ _ (addPendingFn_id _ _) (wf_insertTask _ _ hwf hfresh), ?_⟩
    exact pendingInv_post_add s _ hpi hfresh hcond.2
  next hcond =>
    rw [Except.ok.injEq, Prod.mk.injEq] at h
    obtain ⟨h1, h2⟩ := h
    subst h1; subst h2
    refine ⟨wf_insertTask _ _ hwf hfresh, ?_⟩
    refine pendingInv_post_noadd s _ hpi hfresh ?_ hwf.2.2
    rcases not_and_or.mp hcond with hx | hx
    · exact Or.inl (not_not.mp hx)
    · exact Or.inr (by simpa using hx)

theorem users_updateTask (s : Store) (tid : String) (nt : Task) :
    (updateTask s tid nt).users = s.users := rfl

theorem tasks_removePhase (m : TaskPutMid) : (taskPutRemovePhase m).tasks = m.s1.tasks := by
  unfold taskPutRemovePhase
  split <;> rfl

theorem tasks_addPhase (m : TaskPutMid) (s2 : Store) :
    (taskPutAddPhase m s2).tasks = s2.tasks := by
  unfold taskPutAddPhase
  split <;> rfl

theorem users_addToSetPending (s : Store) (uid x : String) :
    (addToSetPending s uid x).users = s.users.map (addPendingFn uid x) := rfl

theorem users_pullPending (s : Store) (uid x : String) :
    (pullPending s uid x).users = s.users.map (pullPendingFn uid x) := rfl

theorem wf_updateTask (s : Store) (tid : String) (nt : Task) (hnt : nt.id = tid)
    (hwf : wellFormed s) : wellFormed (updateTask s tid nt) := by
  obtain ⟨h1, h2, h3⟩ := hwf
  refine ⟨?_, h2, h3⟩
  show (List.map Task.id (s.tasks.map (updateTaskFn tid nt))).Nodup
  rw [ids_updateTask s.tasks tid nt hnt]
  exact h1

theorem wf_addToSetPending (s : Store) (uid x : String) (hwf : wellFormed s) :
    wellFormed (addToSetPending s uid x) :=
  wf_usersMap s _ (addPendingFn_id uid x) hwf

theorem wf_pullPending (s : Store) (uid x : String) (hwf : wellFormed s) :
    wellFormed (pullPending s uid x) :=
  wf_usersMap s _ (pullPendingFn_id uid x) hwf

theorem shouldRemove_false (m : TaskPutMid) (h : ¬shouldRemovePending m = true) :
    m.oldAssignedUser = m.task.assignedUser ∧ m.oldCompleted = false ∧
      m.task.completed = false ∧ m.task.assignedUser ≠ "" := by
  unfold shouldRemovePending at h
  simp only [Bool.or_eq_true, bne_iff_ne, beq_iff_eq, not_or] at h
  obtain ⟨⟨⟨ha, hb⟩, hc⟩, hd⟩ := h
  exact ⟨not_not.mp ha, by simpa using hb, by simpa using hc, hd⟩

/-- Inversion of the save stage of PUT /tasks/:id. -/
theorem taskPutCore_ok (s : Store) (tid : String) (b : TaskBody) (m : TaskPutMid)
    (h : taskPutCore s tid b = .ok m) :
    ∃ existing ∈ s.tasks, existing.id = tid ∧ m.task.id = tid ∧
      m.oldAssignedUser = existing.assignedUser ∧ m.oldCompleted = existing.completed ∧
      m.s1 = updateTask s tid m.task := by
  unfold taskPutCore at h
  split at h
  · simp at h
  next existing hfind =>
  obtain ⟨hexmem, hexid⟩ := find?_task_eq s tid existing hfind
  split at h
  · simp at h
  dsimp only at h
  split at h
  · simp at h
  split at h
  · simp at h
  rw [Except.ok.injEq] at h
  subst h
  exact ⟨existing, hexmem, hexid, hexid, rfl, rfl, rfl⟩

/-- Membership in a user's pendingTasks after the two reconciliation phases
of PUT /tasks/:id, expressed against the pre-phase store. -/
theorem mem_pending_putPhases (m : TaskPutMid) (u' : User)
    (hu' : u' ∈ (taskPutAddPhase m (taskPutRemovePhase m)).users) :
    ∃ u ∈ m.s1.users, u'.id = u.id ∧
      ∀ tid', tid' ∈ u'.pendingTasks ↔
        ((tid' ∈ u.pendingTasks ∧
            ¬((m.oldAssignedUser ≠ "" ∧ shouldRemovePending m = true) ∧
              u.id = m.oldAssignedUser ∧ tid' = m.task.id)) ∨
          ((m.task.assignedUser ≠ "" ∧ m.task.completed = false) ∧
            u.id = m.task.assignedUser ∧ tid' = m.task.id)) := by
  unfold taskPutAddPhase taskPutRemovePhase at hu'
  by_cases hR : m.oldAssignedUser ≠ "" ∧ shouldRemovePending m = true <;>
    by_cases hA : m.task.assignedUser ≠ "" ∧ m.task.completed = false
  · rw [if_pos hA, if_pos hR, users_addToSetPending, users_pullPending] at hu'
    obtain ⟨u1, hu1, rfl⟩ := List.mem_map.mp hu'
    obtain ⟨u, hu, rfl⟩ := List.mem_map.mp hu1
    refine ⟨u, hu, by rw [addPendingFn_id, pullPendingFn_id], ?_⟩
    intro tid'
    rw [mem_addPendingFn, mem_pullPendingFn, pullPendingFn_id]
    constructor
    · rintro (⟨hm, himp⟩ | ⟨hid, rfl⟩)
      · exact Or.inl ⟨hm, fun hx => himp hx.2.1 hx.2.2⟩
      · exact Or.inr ⟨hA, hid, rfl⟩
    · rintro (⟨hm, hni⟩ | ⟨-, hid, rfl⟩)
      · exact Or.inl ⟨hm, fun hid he => hni ⟨hR, hid, he⟩⟩
      · exact Or.inr ⟨hid, rfl⟩
  · rw [if_neg hA, if_pos hR, users_pullPending] at hu'
    obtain ⟨u, hu, rfl⟩ := List.mem_map.mp hu'
    refine ⟨u, hu, pullPendingFn_id _ _ _, ?_⟩
    intro tid'
    rw [mem_pullPendingFn]
    constructor
    · rintro ⟨hm, himp⟩
      exact Or.inl ⟨hm, fun hx => himp hx.2.1 hx.2.2⟩
    · rintro (⟨hm, hni⟩ | ⟨hAc, -⟩)
      · exact ⟨hm, fun hid he => hni ⟨hR, hid, he⟩⟩
      · exact absurd hAc hA
  · rw [if_pos hA, if_neg hR, users_addToSetPending] at hu'
    obtain ⟨u, hu, rfl⟩ := List.mem_map.mp hu'
    refine ⟨u, hu, addPendingFn_id _ _ _, ?_⟩
    intro tid'
    rw [mem_addPendingFn]
    constructor
    · rintro (hm | ⟨hid, rfl⟩)
      · exact Or.inl ⟨hm, fun hx => hR hx.1⟩
      · exact Or.inr ⟨hA, hid, rfl⟩
    · rintro (⟨hm, -⟩ | ⟨-, hid, rfl⟩)
      · exact Or.inl hm
      · exact Or.inr ⟨hid, rfl⟩
  · rw [if_neg hA, if_neg hR] at hu'
    refine ⟨u', hu', rfl, ?_⟩
    intro tid'
    constructor
    · intro hm
      exact Or.inl ⟨hm, fun hx => hR hx.1⟩
    · rintro (⟨hm, -⟩ | ⟨hAc, -⟩)
      · exact hm
      · exact absurd hAc hA

/-- PUT /tasks/:id preserves the pendingTasks invariant. -/
theorem taskPut_preserves (s : Store) (tid : String) (b : TaskBody) (s' : Store) (t' : Task)
    (hwf : wellFormed s) (hpi : pendingInv s) (h : taskPut s tid b = .ok (s', t')) :
    wellFormed s' ∧ pendingInv s' := by
  unfold taskPut at h
  split at h
  · simp at h
  next m hcore =>
  rw [Except.ok.injEq, Prod.mk.injEq] at h
  obtain ⟨h1, h2⟩ := h
  subst h1; subst h2
  obtain ⟨existing, hexmem, hexid, htid, holdA, holdC, hs1⟩ := taskPutCore_ok s tid b m hcore
  have husers1 : m.s1.users = s.users := by rw [hs1]; rfl
  have htasks1 : m.s1.tasks = s.tasks.map (updateTaskFn tid m.task) := by rw [hs1]; rfl
  have hwf1 : wellFormed m.s1 := by rw [hs1]; exact wf_updateTask s tid m.task htid hwf
  constructor
  · -- wellFormed of the final store
    unfold taskPutAddPhase taskPutRemovePhase
    split
    · split
      · exact wf_addToSetPending _ _ _ (wf_pullPending _ _ _ hwf1)
      · exact wf_addToSetPending _ _ _ hwf1
    · split
      · exact wf_pullPending _ _ _ hwf1
      · exact hwf1
  · -- pendingInv of the final store
    intro u' hu'
    obtain ⟨u, hu1, hid', hmem⟩ := mem_pending_putPhases m u' hu'
    rw [husers1] at hu1
    have huid : u.id ≠ "" := hwf.2.2 u hu1
    have htasksF : (taskPutAddPhase m (taskPutRemovePhase m)).tasks =
        s.tasks.map (updateTaskFn tid m.task) := by
      rw [tasks_addPhase, tasks_removePhase, htasks1]
    constructor
    · -- pendingTasks ⊆ open assigned tasks
      intro tid' htid'
      rw [hmem] at htid'
      rw [htasksF]
      rw [rhs_updateTask s.tasks tid m.task existing hexmem hexid htid tid'
        (fun t => t.assignedUser = u'.id ∧ t.completed = false)]
      rcases htid' with ⟨hmemu, hnot⟩ | ⟨⟨hau, hc⟩, huida, he⟩
      · obtain ⟨t, ht, hta, htb, htc⟩ := (hpi u hu1).1 tid' hmemu
        by_cases heq : tid' = tid
        · -- the member is the updated task itself: show it stays open and assigned
          subst heq
          rw [if_pos rfl]
          have hte : t = existing := by
            have := List.inj_on_of_nodup_map hwf.1
            exact this ht hexmem (by rw [hta, hexid])
          subst hte
          have hR : ¬(m.oldAssignedUser ≠ "" ∧ shouldRemovePending m = true) := by
            intro hRc
            exact hnot ⟨hRc, by rw [holdA, htb], by rw [htid]⟩
          have hoA : m.oldAssignedUser = u.id := by rw [holdA, htb]
          have hSR : ¬shouldRemovePending m = true := by
            intro hsr
            exact hR ⟨by rw [hoA]; exact huid, hsr⟩
          obtain ⟨hsa, hsb, hsc, hsd⟩ := shouldRemove_false m hSR
          refine ⟨?_, hsc⟩
          rw [← hsa, hoA, hid']
        · rw [if_neg heq]
          exact ⟨t, ht, hta, by rw [hid']; exact htb, htc⟩
      · -- the member was just added by the add phase
        subst he
        rw [htid, if_pos rfl]
        exact ⟨by rw [hid', huida], hc⟩
    · -- open assigned tasks ⊆ pendingTasks
      intro t ht hta htc
      rw [htasksF] at ht
      obtain ⟨t0, ht0, rfl⟩ := List.mem_map.mp ht
      rw [hmem]
      unfold updateTaskFn at hta htc ⊢
      by_cases h0 : t0.id = tid
      · rw [if_pos h0] at hta htc ⊢
        refine Or.inr ⟨⟨?_, htc⟩, by rw [hid'] at hta; exact hta.symm, rfl⟩
        rw [hta, hid']
        exact huid
      · rw [if_neg h0] at hta htc ⊢
        have hmem0 : t0.id ∈ u.pendingTasks :=
          (hpi u hu1).2 t0 ht0 (by rw [hid'] at hta; exact hta) htc
        refine Or.inl ⟨hmem0, ?_⟩
        rintro ⟨-, -, he⟩
        rw [htid] at he
        exact h0 he

/-- DELETE /tasks/:id preserves the pendingTasks invariant. -/
theorem taskDelete_preserves (s : Store) (tid : String) (s' : Store)
    (hwf : wellFormed s) (hpi : pendingInv s) (h : taskDelete s tid = .ok s') :
    wellFormed s' ∧ pendingInv s' := by
  unfold taskDelete at h
  split at h
  · simp at h
  next task hfind =>
  obtain ⟨htmem, htkid⟩ := find?_task_eq s tid task hfind
  dsimp only at h
  rw [Except.ok.injEq] at h
  subst h
  by_cases hau : task.assignedUser ≠ ""
  · rw [if_pos hau]
    constructor
    · -- wellFormed
      obtain ⟨h1, h2, h3⟩ := wf_pullPending s task.assignedUser task.id hwf
      refine ⟨?_, h2, h3⟩
      exact h1.sublist (List.Sublist.map Task.id (List.filter_sublist _))
    · intro u' hu'
      rw [users_pullPending] at hu'
      obtain ⟨u, hu, rfl⟩ := List.mem_map.mp hu'
      have huid : u.id ≠ "" := hwf.2.2 u hu
      constructor
      · intro tid' htid'
        rw [mem_pullPendingFn] at htid'
        obtain ⟨hmemu, himp⟩ := htid'
        obtain ⟨t, ht, hta, htb, htc⟩ := (hpi u hu).1 tid' hmemu
        have hne : tid' ≠ tid := by
          intro he
          subst he
          have hte : t = task := by
            have := List.inj_on_of_nodup_map hwf.1
            exact this ht htmem (by rw [hta, htkid])
          subst hte
          exact himp htb.symm htkid.symm
        refine ⟨t, ?_, hta, by rw [pullPendingFn_id]; exact htb, htc⟩
        show t ∈ (pullPending s task.assignedUser task.id).tasks.filter _
        have : (pullPending s task.assignedUser task.id).tasks = s.tasks := rfl
        rw [this, List.mem_filter]
        exact ⟨ht, by simp [bne_iff_ne]; rw [hta]; exact hne⟩
      · intro t ht hta htc
        have : (pullPending s task.assignedUser task.id).tasks = s.tasks := rfl
        rw [this, List.mem_filter] at ht
        obtain ⟨ht0, htne⟩ := ht
        rw [pullPendingFn_id] at hta
        rw [mem_pullPendingFn]
        refine ⟨(hpi u hu).2 t ht0 hta htc, ?_⟩
        intro _ he
        rw [he, htkid] at htne
        simp at htne
  · rw [if_neg hau]
    push_neg at hau
    constructor
    · obtain ⟨h1, h2, h3⟩ := hwf
      exact ⟨h1.sublist (List.Sublist.map Task.id (List.filter_sublist _)), h2, h3⟩
    · intro u hu
      have huid : u.id ≠ "" := hwf.2.2 u hu
      constructor
      · intro tid' htid'
        obtain ⟨t, ht, hta, htb, htc⟩ := (hpi u hu).1 tid' htid'
        have hne : tid' ≠ tid := by
          intro he
          subst he
          have hte : t = task := by
            have := List.inj_on_of_nodup_map hwf.1
            exact this ht htmem (by rw [hta, htkid])
          subst hte
          rw [hau] at htb
          exact huid htb.symm
        refine ⟨t, ?_, hta, htb, htc⟩
        rw [List.mem_filter]
        exact ⟨ht, by simp [bne_iff_ne]; rw [hta]; exact hne⟩
      · intro t ht hta htc
        rw [List.mem_filter] at ht
        exact (hpi u hu).2 t ht.1 hta htc

/-- Any successful Task-Ledger operation preserves well-formedness and the
pendingTasks invariant. -/
theorem applyOp_taskOp_preserves (s s1 : Store) (op : ApiOp) (hop : isTaskOp op = true)
    (hwf : wellFormed s) (hpi : pendingInv s) (h : applyOp s op = .ok s1) :
    wellFormed s1 ∧ pendingInv s1 := by
  cases op with
  | userPostOp b fid now => simp [isTaskOp] at hop
  | userPutOp uid b => simp [isTaskOp] at hop
  | userDeleteOp uid => simp [isTaskOp] at hop
  | taskPostOp b fid =>
    simp only [applyOp] at h
    cases hp : taskPost s b fid with
    | error e => rw [hp] at h; simp [Except.map] at h
    | ok p =>
      rw [hp] at h
      simp only [Except.map] at h
      rw [Except.ok.injEq] at h
      subst h
      exact taskPost_preserves s b fid p.1 p.2 hwf hpi (by rw [hp])
  | taskPutOp tid b =>
    simp only [applyOp] at h
    cases hp : taskPut s tid b with
    | error e => rw [hp] at h; simp [Except.map] at h
    | ok p =>
      rw [hp] at h
      simp only [Except.map] at h
      rw [Except.ok.injEq] at h
      subst h
      exact taskPut_preserves s tid b p.1 p.2 hwf hpi (by rw [hp])
  | taskDeleteOp tid =>
    simp only [applyOp] at h
    exact taskDelete_preserves s tid s1 hwf hpi h

theorem runOps_taskOps_preserves (ops : List ApiOp) :
    ∀ s s' : Store, (∀ op ∈ ops, isTaskOp op = true) → wellFormed s → pendingInv s →
      runOps s ops = .ok s' → wellFormed s' ∧ pendingInv s' := by
  induction ops with
  | nil =>
    intro s s' _ hwf hpi h
    unfold runOps at h
    rw [Except.ok.injEq] at h
    subst h
    exact ⟨hwf, hpi⟩
  | cons op rest ih =>
    intro s s' hall hwf hpi h
    unfold runOps at h
    split at h
    · simp at h
    next s1 happ =>
      obtain ⟨hwf1, hpi1⟩ :=
        applyOp_taskOp_preserves s s1 op (hall op (by simp)) hwf hpi happ
      exact ih s1 s' (fun o ho => hall o (by simp [ho])) hwf1 hpi1 h

/-- C1: for every User U, after any successful sequence of Task POST, PUT
and DELETE operations (each completing all of its store writes), starting
from a well-formed store satisfying the bidirectional invariant,
`U.pendingTasks` again contains exactly the ids of the Tasks whose
`assignedUser` is U's id and whose `completed` is false. -/
theorem c1_pendingTasks_exact (s s' : Store) (ops : List ApiOp)
    (htask : ∀ op ∈ ops, isTaskOp op = true)
    (hwf : wellFormed s) (hpi : pendingInv s)
    (hrun : runOps s ops = .ok s') :
    ∀ u ∈ s'.users,
      (∀ tid ∈ u.pendingTasks,
        ∃ t ∈ s'.tasks, t.id = tid ∧ t.assignedUser = u.id ∧ t.completed = false) ∧
      (∀ t ∈ s'.tasks, t.assignedUser = u.id → t.completed = false →
        t.id ∈ u.pendingTasks) :=
  (runOps_taskOps_preserves ops s s' htask hwf hpi hrun).2

/-- Concrete store used by the witnesses: one user with one open task. -/
def aliceU : User :=
  { id := "u1", name := "Alice", email := "a@b.com", pendingTasks := ["t1"],
    dateCreated := some 0 }

def taskT1 : Task :=
  { id := "t1", name := "T", description := "", deadline := 0, completed := false,
    assignedUser := "u1", assignedUserName := "Alice" }

def demoStore : Store := { users := [aliceU], tasks := [taskT1] }

theorem c1_witness :
    pendingInv (Store.mk
      [{ aliceU with pendingTasks := ["t1", "t2"] }]
      [taskT1,
        { id := "t2", name := "T2", description := "", deadline := 0, completed := false,
          assignedUser := "u1", assignedUserName := "Alice" }]) :=
  c1_pendingTasks_exact demoStore _
    [ApiOp.taskPostOp
      { name := some "T2", description := none, deadline := some "0", completed := none,
        assignedUser := some "u1", assignedUserName := none } "t2"]
    (by decide) (by decide) (by decide) (by rfl)

theorem shouldRemove_iff (m : TaskPutMid) :
    shouldRemovePending m = true ↔
      (m.oldAssignedUser ≠ m.task.assignedUser ∨ m.oldCompleted = true ∨
        m.task.completed = true ∨ m.task.assignedUser = "") := by
  unfold shouldRemovePending
  simp [Bool.or_eq_true, bne_iff_ne, beq_iff_eq, or_assoc]

/-- Second inversion of the save stage of PUT /tasks/:id, exposing how the
saved document's description and deadline were computed. -/
theorem taskPutCore_fields (s : Store) (tid : String) (b : TaskBody) (m : TaskPutMid)
    (h : taskPutCore s tid b = .ok m) :
    ∃ existing, findTask s tid = some existing ∧
      m.task.description = jsOrStr b.description existing.description ∧
      parseDeadline (b.deadline.getD "") = some m.task.deadline := by
  unfold taskPutCore at h
  split at h
  · simp at h
  next existing hfind =>
  split at h
  · simp at h
  dsimp only at h
  split at h
  · simp at h
  next dl hdl =>
  split at h
  · simp at h
  rw [Except.ok.injEq] at h
  subst h
  exact ⟨existing, hfind, rfl, hdl⟩

/-- C4: for a successful Task PUT on a Task with a prior assignee, the prior
assignee's `pendingTasks` after the removal step equals its old value with
this Task's id filtered out exactly when the assignee changed, the Task was
previously completed, is now completed, or is now unassigned; when none of
these holds the removal step leaves it untouched. -/
theorem c4_remove_iff_condition (s : Store) (tid : String) (b : TaskBody) (m : TaskPutMid)
    (hcore : taskPutCore s tid b = .ok m) (hprior : m.oldAssignedUser ≠ "")
    (u : User) (hu : u ∈ s.users) (huid : u.id = m.oldAssignedUser) :
    ∃ u' ∈ (taskPutRemovePhase m).users, u'.id = u.id ∧
      u'.pendingTasks =
        (if m.oldAssignedUser ≠ m.task.assignedUser ∨ m.oldCompleted = true ∨
            m.task.completed = true ∨ m.task.assignedUser = "" then
          u.pendingTasks.filter (fun i => i != m.task.id)
        else u.pendingTasks) := by
  obtain ⟨existing, hexmem, hexid, htid, holdA, holdC, hs1⟩ := taskPutCore_ok s tid b m hcore
  have husers : m.s1.users = s.users := by rw [hs1]; rfl
  unfold taskPutRemovePhase
  by_cases hc : m.oldAssignedUser ≠ m.task.assignedUser ∨ m.oldCompleted = true ∨
      m.task.completed = true ∨ m.task.assignedUser = ""
  · rw [if_pos ⟨hprior, (shouldRemove_iff m).mpr hc⟩, if_pos hc]
    refine ⟨pullPendingFn m.oldAssignedUser m.task.id u, ?_, pullPendingFn_id _ _ _, ?_⟩
    · rw [users_pullPending, husers]
      exact List.mem_map_of_mem _ hu
    · unfold pullPendingFn
      rw [if_pos huid]
  · rw [if_neg (fun hx => hc ((shouldRemove_iff m).mp hx.2)), if_neg hc]
    rw [husers]
    exact ⟨u, hu, rfl, rfl⟩

theorem c4_witness :
    ∃ u' ∈ (taskPutRemovePhase
      { s1 := Store.mk
          [{ id := "u1", name := "Alice", email := "a@b.com", pendingTasks := ["t1"],
             dateCreated := some 0 }]
          [{ id := "t1", name := "T", description := "", deadline := 0, completed := true,
             assignedUser := "u1", assignedUserName := "Alice" }],
        oldAssignedUser := "u1", oldCompleted := false,
        task := { id := "t1", name := "T", description := "", deadline := 0,
                  completed := true, assignedUser := "u1",
                  assignedUserName := "Alice" } }).users,
      u'.id = "u1" ∧ u'.pendingTasks = [] := by
  obtain ⟨u', hu', hid, hpend⟩ :=
    c4_remove_iff_condition demoStore "t1"
      { name := some "T", description := none, deadline := some "0",
        completed := some (.vBool true), assignedUser := none, assignedUserName := none }
      _ (by rfl) (by decide) aliceU (by decide) (by decide)
  exact ⟨u', hu', by rw [hid]; rfl, by rw [hpend]; decide⟩

/-- C10: a Task PUT never clears an existing non-empty description: an
absent or empty body description preserves the stored description, only a
non-empty one replaces it, and the saved document agrees with the returned
payload. -/
theorem c10_description_never_cleared (s : Store) (tid : String) (b : TaskBody)
    (s' : Store) (t' : Task) (h : taskPut s tid b = .ok (s', t'))
    (t0 : Task) (h0 : findTask s tid = some t0) :
    ((b.description = none ∨ b.description = some "") → t'.description = t0.description) ∧
    (∀ d, b.description = some d → d ≠ "" → t'.description = d) ∧
    (t0.description ≠ "" → t'.description ≠ "") ∧
    (∃ w ∈ s'.tasks, w.id = t0.id ∧ w.description = t'.description) := by
  unfold taskPut at h
  split at h
  · simp at h
  next m hcore =>
  rw [Except.ok.injEq, Prod.mk.injEq] at h
  obtain ⟨h1, h2⟩ := h
  subst h1; subst h2
  obtain ⟨existing, hfind, hdesc, -⟩ := taskPutCore_fields s tid b m hcore
  rw [h0, Option.some.injEq] at hfind
  subst hfind
  obtain ⟨ex2, -, -, htid, -, -, hs1⟩ := taskPutCore_ok s tid b m hcore
  obtain ⟨ht0mem, ht0id⟩ := find?_task_eq s tid t0 h0
  have htasksF : (taskPutAddPhase m (taskPutRemovePhase m)).tasks =
      s.tasks.map (updateTaskFn tid m.task) := by
    rw [tasks_addPhase, tasks_removePhase, hs1]
    rfl
  refine ⟨?_, ?_, ?_, ?_⟩
  · rintro (hb | hb) <;> rw [hdesc, hb] <;> rfl
  · intro d hb hd
    rw [hdesc, hb]
    simp [jsOrStr, hd]
  · intro hne
    rw [hdesc]
    cases hb : b.description with
    | none => simpa [jsOrStr] using hne
    | some dd =>
      by_cases hdd : dd = ""
      · simpa [jsOrStr, hdd] using hne
      · simp [jsOrStr, hdd]
  · refine ⟨updateTaskFn tid m.task t0, ?_, ?_, ?_⟩
    · rw [htasksF]
      exact List.mem_map_of_mem _ ht0mem
    · unfold updateTaskFn
      rw [if_pos ht0id, htid, ht0id]
    · unfold updateTaskFn
      rw [if_pos ht0id]

theorem c10_witness :
    ((Option.none = (Option.none : Option String) ∨ Option.none = some "") →
      Task.description
        { id := "t1", name := "T", description := "orig", deadline := 0, completed := false,
          assignedUser := "", assignedUserName := "unassigned" } =
      Task.description
        { id := "t1", name := "T", description := "orig", deadline := 0, completed := false,
          assignedUser := "", assignedUserName := "unassigned" }) ∧
    (Task.description
        { id := "t1", name := "T", description := "orig", deadline := 0, completed := false,
          assignedUser := "", assignedUserName := "unassigned" } ≠ "") := by
  have h := c10_description_never_cleared
    (Store.mk []
      [{ id := "t1", name := "T", description := "orig", deadline := 0, completed := false,
         assignedUser := "", assignedUserName := "unassigned" }])
    "t1"
    { name := some "T", description := none, deadline := some "0", completed := none,
      assignedUser := none, assignedUserName := none }
    (Store.mk []
      [{ id := "t1", name := "T", description := "orig", deadline := 0, completed := false,
         assignedUser := "", assignedUserName := "unassigned" }])
    { id := "t1", name := "T", description := "orig", deadline := 0, completed := false,
      assignedUser := "", assignedUserName := "unassigned" }
    (by rfl)
    { id := "t1", name := "T", description := "orig", deadline := 0, completed := false,
      assignedUser := "", assignedUserName := "unassigned" }
    (by rfl)
  exact ⟨fun hb => h.1 hb, h.2.2.1 (by decide)⟩

theorem length_listQuery_le {α : Type} (docs : List α) (whereP : α → Bool)
    (sortF : Option (List α → List α)) (skip : Option Int) (l : Int) (hl : l ≠ 0) :
    (listQuery docs whereP sortF skip (some l)).length ≤ l.natAbs := by
  unfold listQuery
  dsimp only
  rw [if_pos hl]
  exact List.length_take_le _ _

/-- C9: GET /tasks with no limit parameter returns at most 100 records (for
any filter, sort and skip), while GET /users with no limit parameter applies
no limit at all and returns every matching record. -/
theorem c9_default_limits :
    (∀ (tasks : List Task) (whereP : Task → Bool) (sortF : Option (List Task → List Task))
      (skip : Option Int), (tasksGet tasks whereP sortF skip none).length ≤ 100) ∧
    (∀ (users : List User) (whereP : User → Bool),
      usersGet users whereP none none none = users.filter whereP) := by
  constructor
  · intro tasks whereP sortF skip
    calc (tasksGet tasks whereP sortF skip none).length
        ≤ (100 : Int).natAbs := length_listQuery_le tasks whereP sortF skip 100 (by decide)
      _ ≤ 100 := by decide
  · intro users whereP
    rfl

/-- Inversion of POST /tasks: a created task's deadline is the parse of the
body's deadline string. -/
theorem taskPost_ok_deadline (s : Store) (b : TaskBody) (fid : String) (s' : Store)
    (t : Task) (h : taskPost s b fid = .ok (s', t)) :
    parseDeadline (b.deadline.getD "") = some t.deadline := by
  unfold taskPost at h
  split at h
  · simp at h
  split at h
  · simp at h
  next dl hdl =>
  dsimp only at h
  split at h
  · simp at h
  split at h
  · simp at h
  split at h <;>
  · rw [Except.ok.injEq, Prod.mk.injEq] at h
    obtain ⟨-, h2⟩ := h
    subst h2
    exact hdl

/-- Inversion of PUT /tasks/:id at the whole-handler level. -/
theorem taskPut_ok_core (s : Store) (tid : String) (b : TaskBody) (s' : Store) (t : Task)
    (h : taskPut s tid b = .ok (s', t)) :
    ∃ m, taskPutCore s tid b = .ok m ∧ m.task = t := by
  unfold taskPut at h
  split at h
  · simp at h
  next m hcore =>
  rw [Except.ok.injEq, Prod.mk.injEq] at h
  exact ⟨m, hcore, h.2⟩

theorem bool_ne_true (b : Bool) (h : ¬b = true) : b = false := by
  cases b
  · rfl
  · exact absurd rfl h

/-- A parsed deadline whose numeric coercion succeeded finitely is the
truncated scaled decimal. -/
theorem parseDeadline_fin (d : String) (m : Int) (k : Nat) (v : Int)
    (hfin : jsStringToNumber d = .fin m k) (h : parseDeadline d = some v) :
    v = jsTrunc m k := by
  unfold parseDeadline at h
  rw [hfin] at h
  change timeClip m k = some v at h
  unfold timeClip at h
  split at h
  · rw [Option.some.injEq] at h
    exact h.symm
  · simp at h

/-- A parsed deadline whose numeric coercion is NaN came from the calendar
date-string parser. -/
theorem parseDeadline_nan (d : String) (v : Int)
    (hnan : jsStringToNumber d = .nan) (h : parseDeadline d = some v) :
    jsDateFromString d = some v := by
  unfold parseDeadline at h
  rw [hnan] at h
  exact h

/-- POST /tasks rejects an unparseable deadline. -/
theorem taskPost_bad_deadline (s : Store) (b : TaskBody) (fid : String) (d : String)
    (hb : b.deadline = some d) (hname : ¬strFalsy b.name = true) (hd : d ≠ "")
    (hpd : parseDeadline d = none) :
    taskPost s b fid = .error .invalidDeadline := by
  unfold taskPost
  have hn := bool_ne_true _ hname
  have hsd : strFalsy (some d) = false := by simp [strFalsy, hd]
  have hfal : (strFalsy b.name || strFalsy b.deadline) = false := by
    rw [hb, hn, hsd]
    rfl
  rw [if_neg (by rw [hfal]; exact Bool.false_ne_true)]
  rw [hb]
  show (match parseDeadline d with
    | none => Except.error ApiErr.invalidDeadline
    | some dl => _) = _
  rw [hpd]

/-- PUT /tasks/:id rejects an unparseable deadline on an existing task. -/
theorem taskPut_bad_deadline (s : Store) (tid : String) (b : TaskBody) (t0 : Task)
    (d : String) (h0 : findTask s tid = some t0) (hb : b.deadline = some d)
    (hname : ¬strFalsy b.name = true) (hd : d ≠ "") (hpd : parseDeadline d = none) :
    taskPut s tid b = .error .invalidDeadline := by
  have hcore : taskPutCore s tid b = .error .invalidDeadline := by
    unfold taskPutCore
    rw [h0]
    dsimp only
    have hn := bool_ne_true _ hname
    have hsd : strFalsy (some d) = false := by simp [strFalsy, hd]
    have hfal : (strFalsy b.name || strFalsy b.deadline) = false := by
      rw [hb, hn, hsd]
      rfl
    rw [if_neg (by rw [hfal]; exact Bool.false_ne_true)]
    rw [hb]
    show (match parseDeadline d with
      | none => Except.error ApiErr.invalidDeadline
      | some dl => _) = _
    rw [hpd]
  unfold taskPut
  rw [hcore]

/-- C5: the deadline of a Task POST or PUT is interpreted as epoch
milliseconds whenever numeric coercion of the supplied string succeeds
(negative and decimal forms included, with ECMA truncation and TimeClip),
is otherwise parsed as a calendar date string, and an unparseable value is
rejected with the 400 invalid-deadline error; in particular
"1700000000000" parses to that epoch-millisecond instant and is stored,
while "not-a-date" is rejected. -/
theorem c5_deadline_policy :
    (∀ (s : Store) (b : TaskBody) (fid : String) (s' : Store) (t : Task) (d : String),
      b.deadline = some d → taskPost s b fid = .ok (s', t) →
      (∀ m k, jsStringToNumber d = .fin m k → t.deadline = jsTrunc m k) ∧
      (jsStringToNumber d = .nan → jsDateFromString d = some t.deadline)) ∧
    (∀ (s : Store) (tid : String) (b : TaskBody) (s' : Store) (t : Task) (d : String),
      b.deadline = some d → taskPut s tid b = .ok (s', t) →
      (∀ m k, jsStringToNumber d = .fin m k → t.deadline = jsTrunc m k) ∧
      (jsStringToNumber d = .nan → jsDateFromString d = some t.deadline)) ∧
    (∀ (s : Store) (b : TaskBody) (fid : String) (d : String),
      b.deadline = some d → ¬strFalsy b.name = true → d ≠ "" → parseDeadline d = none →
      taskPost s b fid = .error .invalidDeadline ∧ statusOf .invalidDeadline = 400) ∧
    (∀ (s : Store) (tid : String) (b : TaskBody) (t0 : Task) (d : String),
      findTask s tid = some t0 → b.deadline = some d → ¬strFalsy b.name = true →
      d ≠ "" → parseDeadline d = none → taskPut s tid b = .error .invalidDeadline) ∧
    parseDeadline "1700000000000" = some 1700000000000 ∧
    parseDeadline "not-a-date" = none ∧
    (∃ s' t, taskPost (Store.mk [] [])
        { name := some "Demo", description := none, deadline := some "1700000000000",
          completed := none, assignedUser := none, assignedUserName := none } "t1" =
        .ok (s', t) ∧ t.deadline = 1700000000000) := by
  refine ⟨?_, ?_, ?_, ?_, by decide, by decide, ⟨_, _, rfl, by decide⟩⟩
  · intro s b fid s' t d hb h
    have hpd := taskPost_ok_deadline s b fid s' t h
    rw [hb] at hpd
    exact ⟨fun m k hfin => parseDeadline_fin d m k t.deadline hfin hpd,
      fun hnan => parseDeadline_nan d t.deadline hnan hpd⟩
  · intro s tid b s' t d hb h
    obtain ⟨mm, hcore, hmt⟩ := taskPut_ok_core s tid b s' t h
    obtain ⟨ex, -, -, hpd⟩ := taskPutCore_fields s tid b mm hcore
    rw [hb, hmt] at hpd
    exact ⟨fun m k hfin => parseDeadline_fin d m k t.deadline hfin hpd,
      fun hnan => parseDeadline_nan d t.deadline hnan hpd⟩
  · intro s b fid d hb hname hd hpd
    exact ⟨taskPost_bad_deadline s b fid d hb hname hd hpd, rfl⟩
  · intro s tid b t0 d h0 hb hname hd hpd
    exact taskPut_bad_deadline s tid b t0 d h0 hb hname hd hpd

theorem c5_witness :
    taskPost (Store.mk [] [])
      { name := some "Demo", description := none, deadline := some "not-a-date",
        completed := none, assignedUser := none, assignedUserName := none } "t1" =
      .error .invalidDeadline ∧ statusOf .invalidDeadline = 400 :=
  (c5_deadline_policy.2.2.1 (Store.mk [] [])
    { name := some "Demo", description := none, deadline := some "not-a-date",
      completed := none, assignedUser := none, assignedUserName := none } "t1"
    "not-a-date" rfl (by decide) (by decide) (by decide))

/-- C6: User POST with an email exactly matching an existing User's email
fails with the duplicate-email 400 error (creating nothing, as the handler
returns before any write); with a fresh email and a fresh generated id it
succeeds and stores the record.  User PUT re-checks uniqueness excluding
the updated User's own id, so an update keeping its own email succeeds. -/
theorem c6_email_uniqueness (s : Store) (b : UserBody)
    (hname : ¬strFalsy b.name = true) (hemail : ¬strFalsy b.email = true) :
    ((∃ u ∈ s.users, u.email = b.email.getD "") →
      ∀ fid now, userPost s b fid now = .error .duplicateEmail ∧
        statusOf .duplicateEmail = 400) ∧
    ((∀ u ∈ s.users, u.email ≠ b.email.getD "") →
      ∀ fid (now : Int), (∀ u ∈ s.users, u.id ≠ fid) →
        ∃ s' u', userPost s b fid now = .ok (s', u') ∧ u' ∈ s'.users ∧
          u'.email = b.email.getD "") ∧
    (∀ uid u0, findUser s uid = some u0 →
      (∀ v ∈ s.users, v.email = b.email.getD "" → v.id = uid) →
      ∃ s' u', userPut s uid b = .ok (s', u')) := by
  have hfal : (strFalsy b.name || strFalsy b.email) = false := by
    rw [bool_ne_true _ hname, bool_ne_true _ hemail]
    rfl
  refine ⟨?_, ?_, ?_⟩
  · rintro ⟨u, hu, hue⟩ fid now
    unfold userPost
    rw [if_neg (by rw [hfal]; exact Bool.false_ne_true)]
    rw [if_pos (by
      rw [List.any_eq_true]
      exact ⟨u, hu, by simpa using hue⟩)]
    exact ⟨rfl, rfl⟩
  · intro hno fid now hfresh
    unfold userPost
    rw [if_neg (by rw [hfal]; exact Bool.false_ne_true)]
    have hany : (s.users.any fun u => u.email == b.email.getD "") = false := by
      rw [List.any_eq_false]
      intro u hu
      simpa using hno u hu
    rw [if_neg (by rw [hany]; exact Bool.false_ne_true)]
    have hins : (s.users.any fun x => x.id == fid) = false := by
      rw [List.any_eq_false]
      intro u hu
      simpa using hfresh u hu
    unfold insertUser
    dsimp only
    rw [if_neg (by rw [hins]; exact Bool.false_ne_true)]
    exact ⟨_, _, rfl, by simp, rfl⟩
  · intro uid u0 hfind honly
    unfold userPut
    rw [if_neg (by rw [hfal]; exact Bool.false_ne_true)]
    rw [hfind]
    dsimp only
    have hany : (s.users.any fun u => u.email == b.email.getD "" && u.id != uid) = false := by
      rw [List.any_eq_false]
      intro v hv
      simp only [Bool.and_eq_true, beq_iff_eq, bne_iff_ne, not_and]
      intro hve
      simp only [ne_eq, not_not]
      exact honly v hv hve
    rw [if_neg (by rw [hany]; exact Bool.false_ne_true)]
    exact ⟨_, _, rfl⟩

theorem c6_witness :
    (userPost demoStore
        { name := some "Bob", email := some "a@b.com", pendingTasks := none,
          dateCreated := none } "u2" 5 =
      .error .duplicateEmail ∧ statusOf .duplicateEmail = 400) ∧
    (∃ s' u', userPut demoStore "u1"
        { name := some "Alice", email := some "a@b.com", pendingTasks := some (.arr ["t1"]),
          dateCreated := none } = .ok (s', u')) := by
  constructor
  · exact (c6_email_uniqueness demoStore
      { name := some "Bob", email := some "a@b.com", pendingTasks := none,
        dateCreated := none } (by decide) (by decide)).1
      ⟨aliceU, by decide, by decide⟩ "u2" 5
  · exact (c6_email_uniqueness demoStore
      { name := some "Alice", email := some "a@b.com", pendingTasks := some (.arr ["t1"]),
        dateCreated := none } (by decide) (by decide)).2.2
      "u1" aliceU (by decide) (by decide)

/-- C7: deleting an existing User first clears `assignedUser` and sets
`assignedUserName` to "unassigned" on every Task assigned to it (regardless
of completion state, which is preserved), leaves other Tasks untouched, and
removes the User record; deleting a missing id is a 404 (and, the handler
returning before any write, changes nothing). -/
theorem c7_user_delete_cascade (s : Store) (uid : String) :
    (∀ u0, findUser s uid = some u0 →
      ∃ s', userDelete s uid = .ok s' ∧
        (∀ t ∈ s.tasks, t.assignedUser = uid →
          ∃ t' ∈ s'.tasks, t'.id = t.id ∧ t'.completed = t.completed ∧
            t'.assignedUser = "" ∧ t'.assignedUserName = "unassigned") ∧
        (∀ t ∈ s.tasks, t.assignedUser ≠ uid → t ∈ s'.tasks) ∧
        (∀ u ∈ s'.users, u.id ≠ uid)) ∧
    (findUser s uid = none →
      userDelete s uid = .error .notFound ∧ statusOf .notFound = 404) := by
  constructor
  · intro u0 hfind
    refine ⟨_, by unfold userDelete; rw [hfind], ?_, ?_, ?_⟩
    · intro t ht hta
      refine ⟨{ t with assignedUser := "", assignedUserName := "unassigned" }, ?_, rfl, rfl,
        rfl, rfl⟩
      have := List.mem_map_of_mem (fun (t : Task) =>
        if t.assignedUser = uid then
          { t with assignedUser := "", assignedUserName := "unassigned" }
        else t) ht
      dsimp only at this
      rw [if_pos hta] at this
      exact this
    · intro t ht hta
      have := List.mem_map_of_mem (fun (t : Task) =>
        if t.assignedUser = uid then
          { t with assignedUser := "", assignedUserName := "unassigned" }
        else t) ht
      dsimp only at this
      rw [if_neg hta] at this
      exact this
    · intro u hu
      rw [List.mem_filter] at hu
      simpa using hu.2
  · intro hnone
    unfold userDelete
    rw [hnone]
    exact ⟨rfl, rfl⟩

theorem c7_witness :
    (∃ s', userDelete demoStore "u1" = .ok s' ∧
      (∀ t ∈ demoStore.tasks, t.assignedUser = "u1" →
        ∃ t' ∈ s'.tasks, t'.id = t.id ∧ t'.completed = t.completed ∧
          t'.assignedUser = "" ∧ t'.assignedUserName = "unassigned") ∧
      (∀ t ∈ demoStore.tasks, t.assignedUser ≠ "u1" → t ∈ s'.tasks) ∧
      (∀ u ∈ s'.users, u.id ≠ "u1")) ∧
    (userDelete demoStore "missing" = .error .notFound ∧ statusOf .notFound = 404) :=
  ⟨(c7_user_delete_cascade demoStore "u1").1 aliceU (by decide),
    (c7_user_delete_cascade demoStore "missing").2 (by decide)⟩

/-- C8 (amended): the dateCreated override is honoured only on User PUT,
where a supplied non-empty value is re-parsed and stored; User POST ignores
any supplied value and stores the creation time. -/
theorem mem_updateUser_self (users : List User) (user nu : User) (uid : String)
    (hmem : user ∈ users) (hid : user.id = uid) : nu ∈ users.map (updateUserFn uid nu) := by
  have := List.mem_map_of_mem (updateUserFn uid nu) hmem
  unfold updateUserFn at this
  rw [if_pos hid] at this
  exact this

/-- C8 (amended): the dateCreated override is honoured only on User PUT,
where a supplied non-empty value is re-parsed and stored; User POST ignores
any supplied value and stores the creation time. -/
theorem c8_dateCreated_update_only :
    (∀ (s : Store) (uid : String) (b : UserBody) (s' : Store) (u' : User) (d : String),
      userPut s uid b = .ok (s', u') → b.dateCreated = some d → d ≠ "" →
      u'.dateCreated = jsDateFromString d ∧
        ∃ w ∈ s'.users, w.id = u'.id ∧ w.dateCreated = jsDateFromString d) ∧
    (∀ (s : Store) (b : UserBody) (fid : String) (now : Int) (s' : Store) (u' : User),
      userPost s b fid now = .ok (s', u') → u'.dateCreated = some now) := by
  constructor
  · intro s uid b s' u' d h hd hne
    unfold userPut at h
    split at h
    · simp at h
    split at h
    · simp at h
    next user hfind =>
    split at h
    · simp at h
    dsimp only at h
    rw [Except.ok.injEq, Prod.mk.injEq] at h
    obtain ⟨h1, h2⟩ := h
    subst h1
    obtain ⟨humem, huid⟩ := find?_user_eq s uid user hfind
    have hdc : u'.dateCreated = jsDateFromString d := by
      rw [← h2, hd]
      dsimp only
      rw [if_neg hne]
    refine ⟨hdc, u', ?_, rfl, hdc⟩
    rw [← h2]
    split
    · split
      · exact mem_updateUser_self s.users user _ uid humem huid
      · exact mem_updateUser_self s.users user _ uid humem huid
    · split
      · exact mem_updateUser_self s.users user _ uid humem huid
      · exact mem_updateUser_self s.users user _ uid humem huid
  · intro s b fid now s' u' h
    unfold userPost at h
    split at h
    · simp at h
    split at h
    · simp at h
    dsimp only at h
    split at h
    · simp at h
    rw [Except.ok.injEq, Prod.mk.injEq] at h
    rw [← h.2]
    rfl

theorem c8_witness :
    (∃ s' u', userPut demoStore "u1"
        { name := some "Alice", email := some "a@b.com",
          pendingTasks := some (.arr ["t1"]), dateCreated := some "2020-01-01" } =
        .ok (s', u') ∧ u'.dateCreated = some 1577836800000) ∧
    (∃ s' u', userPost (Store.mk [] [])
        { name := some "Carol", email := some "c@d.com", pendingTasks := none,
          dateCreated := some "2020-01-01" } "u9" 42 = .ok (s', u') ∧
        u'.dateCreated = some 42) := by
  constructor
  · refine ⟨_, _, rfl, ?_⟩
    have := (c8_dateCreated_update_only.1 demoStore "u1"
      { name := some "Alice", email := some "a@b.com",
        pendingTasks := some (.arr ["t1"]), dateCreated := some "2020-01-01" }
      _ _ "2020-01-01" rfl rfl (by decide)).1
    rw [this]
    decide
  · refine ⟨_, _, rfl, ?_⟩
    have := c8_dateCreated_update_only.2 (Store.mk [] [])
      { name := some "Carol", email := some "c@d.com", pendingTasks := none,
        dateCreated := some "2020-01-01" } "u9" 42 _ _ rfl
    rw [this]

/-- C8 counterexample: at User POST the handler never reads the body's
dateCreated, so the stored value is the creation time, not the supplied
value re-parsed — refuting the claim that the override also works at
creation time. -/
theorem c8_counterexample :
    ∃ s' u', userPost (Store.mk [] [])
        { name := some "Carol", email := some "c@d.com", pendingTasks := none,
          dateCreated := some "2020-01-01" } "u1" 1700000000000 = .ok (s', u') ∧
      u'.dateCreated = some 1700000000000 ∧
      jsDateFromString "2020-01-01" = some 1577836800000 ∧
      u'.dateCreated ≠ jsDateFromString "2020-01-01" := by
  refine ⟨_, _, rfl, by decide, by decide, by decide⟩

theorem mem_diffFilter (l1 l2 : List String) (i : String) :
    i ∈ l1.filter (fun j => !l2.contains j) ↔ (i ∈ l1 ∧ i ∉ l2) := by
  simp [List.mem_filter]

theorem userPutAddFn_pos (userId nm : String) (l : List String) (t : Task)
    (h : t.id ∈ l) : userPutAddFn userId nm l t =
      { t with assignedUser := userId, assignedUserName := nm, completed := false } := by
  unfold userPutAddFn
  rw [if_pos h]

theorem userPutAddFn_neg (userId nm : String) (l : List String) (t : Task)
    (h : t.id ∉ l) : userPutAddFn userId nm l t = t := by
  unfold userPutAddFn
  rw [if_neg h]

theorem userPutRemoveFn_pos (userId : String) (l : List String) (t : Task)
    (h1 : t.id ∈ l) (h2 : t.assignedUser = userId) :
    userPutRemoveFn userId l t =
      { t with assignedUser := "", assignedUserName := "unassigned" } := by
  unfold userPutRemoveFn
  rw [if_pos ⟨h1, h2⟩]

theorem userPutRemoveFn_neg (userId : String) (l : List String) (t : Task)
    (h : t.id ∉ l ∨ t.assignedUser ≠ userId) : userPutRemoveFn userId l t = t := by
  unfold userPutRemoveFn
  rcases h with h | h
  · rw [if_neg (fun hx => h hx.1)]
  · rw [if_neg (fun hx => h hx.2)]

/-- C3: a successful User PUT reconciles Tasks against the pendingTasks
diff: each added id's Task is assigned to this User (live updated name,
reopened); each removed id's Task is cleared to unassigned only if it still
points at this User, and is otherwise left untouched. -/
theorem c3_userPut_reconciliation (s : Store) (uid : String) (b : UserBody)
    (s' : Store) (u' : User) (h : userPut s uid b = .ok (s', u'))
    (u0 : User) (h0 : findUser s uid = some u0) :
    ∀ t ∈ s.tasks,
      (t.id ∈ normalizePending b.pendingTasks → t.id ∉ u0.pendingTasks →
        ∃ t' ∈ s'.tasks, t'.id = t.id ∧ t'.assignedUser = uid ∧
          t'.assignedUserName = u'.name ∧ t'.completed = false) ∧
      (t.id ∈ u0.pendingTasks → t.id ∉ normalizePending b.pendingTasks →
        (t.assignedUser = uid →
          ∃ t' ∈ s'.tasks, t'.id = t.id ∧ t'.assignedUser = "" ∧
            t'.assignedUserName = "unassigned" ∧ t'.completed = t.completed ∧
            t'.name = t.name ∧ t'.description = t.description ∧
            t'.deadline = t.deadline) ∧
        (t.assignedUser ≠ uid → t ∈ s'.tasks)) := by
  unfold userPut at h
  split at h
  · simp at h
  split at h
  · simp at h
  next user hfind =>
  split at h
  · simp at h
  dsimp only at h
  rw [Except.ok.injEq, Prod.mk.injEq] at h
  obtain ⟨h1, h2⟩ := h
  subst h1
  rw [h0, Option.some.injEq] at hfind
  subst hfind
  subst h2
  obtain ⟨humem, huid⟩ := find?_user_eq s uid u0 h0
  intro t ht
  constructor
  · -- added identifier
    intro hin hnotin
    have hidAdd : t.id ∈ (normalizePending b.pendingTasks).filter
        (fun i => !u0.pendingTasks.contains i) :=
      (mem_diffFilter _ _ _).mpr ⟨hin, hnotin⟩
    have hidNotRem : t.id ∉ u0.pendingTasks.filter
        (fun i => !(normalizePending b.pendingTasks).contains i) := by
      intro hx
      exact ((mem_diffFilter _ _ _).mp hx).2 hin
    split
    · next hrem =>
      split
      · next hadd =>
        refine ⟨_, List.mem_map_of_mem _ (List.mem_map_of_mem _ ht), ?_⟩
        have hcomp : userPutRemoveFn u0.id
            (u0.pendingTasks.filter
              (fun i => !(normalizePending b.pendingTasks).contains i))
            (userPutAddFn u0.id (b.name.getD "")
              ((normalizePending b.pendingTasks).filter
                (fun i => !u0.pendingTasks.contains i)) t) =
            { t with assignedUser := u0.id, assignedUserName := b.name.getD "",
                     completed := false } := by
          rw [userPutAddFn_pos _ _ _ _ hidAdd]
          exact userPutRemoveFn_neg _ _ _ (Or.inl hidNotRem)
        rw [hcomp]
        exact ⟨rfl, huid, rfl, rfl⟩
      · next hadd =>
        exact absurd (List.length_pos_of_mem hidAdd).ne' (by simpa using hadd)
    · next hrem =>
      split
      · next hadd =>
        refine ⟨_, List.mem_map_of_mem _ ht, ?_⟩
        rw [userPutAddFn_pos _ _ _ _ hidAdd]
        exact ⟨rfl, huid, rfl, rfl⟩
      · next hadd =>
        exact absurd (List.length_pos_of_mem hidAdd).ne' (by simpa using hadd)
  · -- removed identifier
    intro hin hnotin
    have hidRem : t.id ∈ u0.pendingTasks.filter
        (fun i => !(normalizePending b.pendingTasks).contains i) :=
      (mem_diffFilter _ _ _).mpr ⟨hin, hnotin⟩
    have hidNotAdd : t.id ∉ (normalizePending b.pendingTasks).filter
        (fun i => !u0.pendingTasks.contains i) := by
      intro hx
      exact hnotin ((mem_diffFilter _ _ _).mp hx).1
    constructor
    · -- still pointing at this user: cleared
      intro hta
      split
      · next hrem =>
        split
        · next hadd =>
          refine ⟨_, List.mem_map_of_mem _ (List.mem_map_of_mem _ ht), ?_⟩
          rw [userPutAddFn_neg _ _ _ _ hidNotAdd]
          rw [userPutRemoveFn_pos _ _ _ hidRem (by rw [hta, huid])]
          exact ⟨rfl, rfl, rfl, rfl, rfl, rfl, rfl⟩
        · next hadd =>
          refine ⟨_, List.mem_map_of_mem _ ht, ?_⟩
          rw [userPutRemoveFn_pos _ _ _ hidRem (by rw [hta, huid])]
          exact ⟨rfl, rfl, rfl, rfl, rfl, rfl, rfl⟩
      · next hrem =>
        exact absurd (List.length_pos_of_mem hidRem).ne' (by simpa using hrem)
    · -- reassigned elsewhere in the interim: untouched
      intro hta
      split
      · next hrem =>
        split
        · next hadd =>
          have := List.mem_map_of_mem (userPutRemoveFn u0.id
            (u0.pendingTasks.filter
              (fun i => !(normalizePending b.pendingTasks).contains i)))
            (List.mem_map_of_mem (userPutAddFn u0.id
              (b.name.getD "")
              ((normalizePending b.pendingTasks).filter
                (fun i => !u0.pendingTasks.contains i))) ht)
          rw [userPutAddFn_neg _ _ _ _ hidNotAdd] at this
          rw [userPutRemoveFn_neg _ _ _ (Or.inr (by rw [huid]; exact hta))] at this
          exact this
        · next hadd =>
          have := List.mem_map_of_mem (userPutRemoveFn u0.id
            (u0.pendingTasks.filter
              (fun i => !(normalizePending b.pendingTasks).contains i))) ht
          rw [userPutRemoveFn_neg _ _ _ (Or.inr (by rw [huid]; exact hta))] at this
          exact this
      · next hrem =>
        split
        · next hadd =>
          have := List.mem_map_of_mem (userPutAddFn u0.id
            (b.name.getD "")
            ((normalizePending b.pendingTasks).filter
              (fun i => !u0.pendingTasks.contains i))) ht
          rw [userPutAddFn_neg _ _ _ _ hidNotAdd] at this
          exact this
        · next hadd =>
          exact ht

/-- Inversion of the shared assignee-resolution block. -/
theorem resolveAssignee_ok (s : Store) (au aun : String)
    (h : resolveAssignee s au = .ok aun) :
    (au = "" ∧ aun = "unassigned") ∨
      (au ≠ "" ∧ ∃ u ∈ s.users, u.id = au ∧ aun = u.name) := by
  unfold resolveAssignee at h
  split at h
  · next he =>
    rw [Except.ok.injEq] at h
    exact Or.inl ⟨he, h.symm⟩
  · next he =>
    split at h
    · simp at h
    · next u hu =>
      rw [Except.ok.injEq] at h
      obtain ⟨hm, hid⟩ := find?_user_eq s au u hu
      exact Or.inr ⟨he, u, hm, hid, h.symm⟩

/-- A user-collection rewrite that preserves ids and names transfers the
assignee existential. -/
theorem exists_user_map (l : List User) (f : User → User)
    (hid : ∀ u, (f u).id = u.id) (hnm : ∀ u, (f u).name = u.name) (a n : String)
    (h : ∃ u ∈ l, u.id = a ∧ n = u.name) :
    ∃ u ∈ l.map f, u.id = a ∧ n = u.name := by
  obtain ⟨u, hu, h1, h2⟩ := h
  exact ⟨f u, List.mem_map_of_mem f hu, by rw [hid]; exact h1, by rw [hnm]; exact h2⟩

/-- The same transfer through the two pendingTasks phases of a Task PUT. -/
theorem exists_user_phases (m : TaskPutMid) (a n : String)
    (h : ∃ u ∈ m.s1.users, u.id = a ∧ n = u.name) :
    ∃ u ∈ (taskPutAddPhase m (taskPutRemovePhase m)).users, u.id = a ∧ n = u.name := by
  unfold taskPutAddPhase taskPutRemovePhase
  split
  · split
    · rw [users_addToSetPending, users_pullPending]
      exact exists_user_map _ _ (addPendingFn_id _ _) (addPendingFn_name _ _) a n
        (exists_user_map _ _ (pullPendingFn_id _ _) (pullPendingFn_name _ _) a n h)
    · rw [users_addToSetPending]
      exact exists_user_map _ _ (addPendingFn_id _ _) (addPendingFn_name _ _) a n h
  · split
    · rw [users_pullPending]
      exact exists_user_map _ _ (pullPendingFn_id _ _) (pullPendingFn_name _ _) a n h
    · exact h

/-- Full inversion of the save stage of PUT /tasks/:id for the
name-synchronization argument. -/
theorem taskPutCore_resolve (s : Store) (tid : String) (b : TaskBody) (m : TaskPutMid)
    (h : taskPutCore s tid b = .ok m) :
    resolveAssignee s m.task.assignedUser = .ok m.task.assignedUserName := by
  unfold taskPutCore at h
  split at h
  · simp at h
  split at h
  · simp at h
  dsimp only at h
  split at h
  · simp at h
  split at h
  · simp at h
  next aun hres =>
  rw [Except.ok.injEq] at h
  subst h
  exact hres

/-- Inversion of POST /tasks for the name-synchronization argument. -/
theorem taskPost_ok_parts (s : Store) (b : TaskBody) (fid : String) (s' : Store) (t : Task)
    (h : taskPost s b fid = .ok (s', t)) :
    resolveAssignee s t.assignedUser = .ok t.assignedUserName ∧
      ((s' = addToSetPending { s with tasks := s.tasks ++ [t] } t.assignedUser t.id) ∨
        (s' = { s with tasks := s.tasks ++ [t] })) := by
  unfold taskPost at h
  split at h
  · simp at h
  split at h
  · simp at h
  dsimp only at h
  split at h
  · simp at h
  next aun hres =>
  split at h
  · simp at h
  next hins =>
  obtain ⟨hfresh, rfl⟩ := insertTask_ok _ _ _ hins
  split at h <;>
  · rw [Except.ok.injEq, Prod.mk.injEq] at h
    obtain ⟨h1, h2⟩ := h
    subst h1
    subst h2
    first
      | exact ⟨hres, Or.inl rfl⟩
      | exact ⟨hres, Or.inr rfl⟩

/-- POST /tasks preserves the name-synchronization invariant. -/
theorem nameInv_taskPost (s : Store) (b : TaskBody) (fid : String) (s' : Store) (t : Task)
    (hni : nameInv s) (h : taskPost s b fid = .ok (s', t)) : nameInv s' := by
  obtain ⟨hres, hsh⟩ := taskPost_ok_parts s b fid s' t h
  have hnew : (t.assignedUser = "" → t.assignedUserName = "unassigned") ∧
      (t.assignedUser ≠ "" →
        ∃ u ∈ s.users, u.id = t.assignedUser ∧ t.assignedUserName = u.name) := by
    rcases resolveAssignee_ok s _ _ hres with ⟨he, hn⟩ | ⟨he, hu⟩
    · exact ⟨fun _ => hn, fun hx => absurd he hx⟩
    · exact ⟨fun hx => absurd hx he, fun _ => hu⟩
  rcases hsh with rfl | rfl
  · intro t' ht'
    rw [show (addToSetPending { s with tasks := s.tasks ++ [t] } t.assignedUser t.id).tasks
        = s.tasks ++ [t] from rfl] at ht'
    rw [users_addToSetPending]
    rcases List.mem_append.mp ht' with hold | hnew'
    · obtain ⟨c1, c2⟩ := hni t' hold
      exact ⟨c1, fun hx =>
        exists_user_map _ _ (addPendingFn_id _ _) (addPendingFn_name _ _) _ _ (c2 hx)⟩
    · simp only [List.mem_singleton] at hnew'
      subst hnew'
      exact ⟨hnew.1, fun hx =>
        exists_user_map _ _ (addPendingFn_id _ _) (addPendingFn_name _ _) _ _ (hnew.2 hx)⟩
  · intro t' ht'
    rcases List.mem_append.mp ht' with hold | hnew'
    · exact hni t' hold
    · simp only [List.mem_singleton] at hnew'
      subst hnew'
      exact hnew

/-- PUT /tasks/:id preserves the name-synchronization invariant. -/
theorem nameInv_taskPut (s : Store) (tid : String) (b : TaskBody) (s' : Store) (t : Task)
    (hni : nameInv s) (h : taskPut s tid b = .ok (s', t)) : nameInv s' := by
  obtain ⟨m, hcore, -⟩ := taskPut_ok_core s tid b s' t h
  unfold taskPut at h
  rw [hcore] at h
  rw [Except.ok.injEq, Prod.mk.injEq] at h
  obtain ⟨h1, -⟩ := h
  subst h1
  obtain ⟨existing, hexmem, hexid, htid, -, -, hs1⟩ := taskPutCore_ok s tid b m hcore
  have hres := taskPutCore_resolve s tid b m hcore
  have hnew : (m.task.assignedUser = "" → m.task.assignedUserName = "unassigned") ∧
      (m.task.assignedUser ≠ "" →
        ∃ u ∈ s.users, u.id = m.task.assignedUser ∧ m.task.assignedUserName = u.name) := by
    rcases resolveAssignee_ok s _ _ hres with ⟨he, hn⟩ | ⟨he, hu⟩
    · exact ⟨fun _ => hn, fun hx => absurd he hx⟩
    · exact ⟨fun hx => absurd hx he, fun _ => hu⟩
  intro t' ht'
  rw [tasks_addPhase, tasks_removePhase, hs1] at ht'
  have ht'' : t' ∈ s.tasks.map (updateTaskFn tid m.task) := ht'
  obtain ⟨t0, ht0, rfl⟩ := List.mem_map.mp ht''
  have husers1 : m.s1.users = s.users := by rw [hs1]; rfl
  unfold updateTaskFn
  by_cases h0 : t0.id = tid
  · rw [if_pos h0]
    refine ⟨hnew.1, fun hx => exists_user_phases m _ _ ?_⟩
    rw [husers1]
    exact hnew.2 hx
  · rw [if_neg h0]
    obtain ⟨c1, c2⟩ := hni t0 ht0
    refine ⟨c1, fun hx => exists_user_phases m _ _ ?_⟩
    rw [husers1]
    exact c2 hx

/-- DELETE /tasks/:id preserves the name-synchronization invariant. -/
theorem nameInv_taskDelete (s : Store) (tid : String) (s' : Store)
    (hni : nameInv s) (h : taskDelete s tid = .ok s') : nameInv s' := by
  unfold taskDelete at h
  split at h
  · simp at h
  next task hfind =>
  dsimp only at h
  rw [Except.ok.injEq] at h
  subst h
  by_cases hau : task.assignedUser ≠ ""
  · rw [if_pos hau]
    intro t' ht'
    have : t' ∈ (pullPending s task.assignedUser task.id).tasks.filter
        (fun t => t.id != tid) := ht'
    rw [show (pullPending s task.assignedUser task.id).tasks = s.tasks from rfl,
      List.mem_filter] at this
    obtain ⟨c1, c2⟩ := hni t' this.1
    refine ⟨c1, fun hx => ?_⟩
    rw [users_pullPending]
    exact exists_user_map _ _ (pullPendingFn_id _ _) (pullPendingFn_name _ _) _ _ (c2 hx)
  · rw [if_neg hau]
    intro t' ht'
    rw [List.mem_filter] at ht'
    exact hni t' ht'.1

/-- POST /users preserves the name-synchronization invariant. -/
theorem nameInv_userPost (s : Store) (b : UserBody) (fid : String) (now : Int)
    (s' : Store) (u : User) (hni : nameInv s) (h : userPost s b fid now = .ok (s', u)) :
    nameInv s' := by
  unfold userPost at h
  split at h
  · simp at h
  split at h
  · simp at h
  dsimp only at h
  split at h
  · simp at h
  next s1 hins =>
  obtain ⟨hfresh, rfl⟩ := insertUser_ok _ _ _ hins
  rw [Except.ok.injEq, Prod.mk.injEq] at h
  obtain ⟨h1, -⟩ := h
  subst h1
  intro t' ht'
  obtain ⟨c1, c2⟩ := hni t' ht'
  refine ⟨c1, fun hx => ?_⟩
  obtain ⟨v, hv, hv1, hv2⟩ := c2 hx
  exact ⟨v, List.mem_append_left _ hv, hv1, hv2⟩

/-- DELETE /users/:id preserves the name-synchronization invariant. -/
theorem nameInv_userDelete (s : Store) (uid : String) (s' : Store)
    (hni : nameInv s) (h : userDelete s uid = .ok s') : nameInv s' := by
  unfold userDelete at h
  split at h
  · simp at h
  dsimp only at h
  rw [Except.ok.injEq] at h
  subst h
  intro t' ht'
  obtain ⟨t0, ht0, rfl⟩ := List.mem_map.mp ht'
  dsimp only
  by_cases h0 : t0.assignedUser = uid
  · rw [if_pos h0]
    exact ⟨fun _ => rfl, fun hx => absurd rfl hx⟩
  · rw [if_neg h0]
    obtain ⟨c1, c2⟩ := hni t0 ht0
    refine ⟨c1, fun hx => ?_⟩
    obtain ⟨v, hv, hv1, hv2⟩ := c2 hx
    refine ⟨v, ?_, hv1, hv2⟩
    rw [List.mem_filter]
    refine ⟨hv, ?_⟩
    simp only [bne_iff_ne, ne_eq]
    rw [hv1]
    exact h0

/-- Membership-conditioned variant of the assignee-existential transfer. -/
theorem exists_user_map_mem (l : List User) (f : User → User)
    (hid : ∀ u ∈ l, (f u).id = u.id) (hnm : ∀ u ∈ l, (f u).name = u.name) (a n : String)
    (h : ∃ u ∈ l, u.id = a ∧ n = u.name) :
    ∃ u ∈ l.map f, u.id = a ∧ n = u.name := by
  obtain ⟨u, hu, h1, h2⟩ := h
  exact ⟨f u, List.mem_map_of_mem f hu, by rw [hid u hu]; exact h1,
    by rw [hnm u hu]; exact h2⟩

/-- PUT /users/:id with an unchanged name preserves the
name-synchronization invariant. -/
theorem nameInv_userPut (s : Store) (uid : String) (b : UserBody) (s' : Store) (u' : User)
    (hwf : wellFormed s) (hni : nameInv s) (h : userPut s uid b = .ok (s', u'))
    (hname : ∀ u0, findUser s uid = some u0 → b.name = some u0.name) : nameInv s' := by
  unfold userPut at h
  split at h
  · simp at h
  split at h
  · simp at h
  next user hfind =>
  split at h
  · simp at h
  dsimp only at h
  rw [Except.ok.injEq, Prod.mk.injEq] at h
  obtain ⟨h1, h2⟩ := h
  subst h1
  obtain ⟨humem, huid⟩ := find?_user_eq s uid user hfind
  have hn := hname user hfind
  have hnuname : (b.name.getD "") = user.name := by rw [hn]; rfl
  have huid_ne : user.id ≠ "" := hwf.2.2 user humem
  rw [h2]
  have hu'id : u'.id = user.id := by rw [← h2]
  have hu'name : u'.name = user.name := by rw [← h2]; exact hnuname
  have hupd_id : ∀ v : User, (updateUserFn uid u' v).id = v.id := by
    intro v
    unfold updateUserFn
    by_cases hv : v.id = uid
    · rw [if_pos hv, hu'id, huid, hv]
    · rw [if_neg hv]
  have hupd_nm : ∀ v ∈ s.users, (updateUserFn uid u' v).name = v.name := by
    intro v hv
    unfold updateUserFn
    by_cases hvid : v.id = uid
    · rw [if_pos hvid]
      have hveq : v = user := by
        have := List.inj_on_of_nodup_map hwf.2.1
        exact this hv humem (by rw [hvid, huid])
      rw [hu'name, hveq]
    · rw [if_neg hvid]
  have htrans : ∀ a n : String, (∃ v ∈ s.users, v.id = a ∧ n = v.name) →
      ∃ v ∈ (updateUser s uid u').users, v.id = a ∧ n = v.name := by
    intro a n hx
    exact exists_user_map_mem s.users _ (fun v _ => hupd_id v) hupd_nm a n hx
  have hself : ∃ v ∈ (updateUser s uid u').users,
      v.id = user.id ∧ (b.name.getD "") = v.name := by
    refine ⟨u', mem_updateUser_self s.users user u' uid humem huid, hu'id, ?_⟩
    rw [← h2]
  unfold nameInv
  split
  · next hrem =>
    split
    · next hadd =>
      intro t' ht'
      obtain ⟨t1, ht1, rfl⟩ := List.mem_map.mp ht'
      obtain ⟨t0, ht0, rfl⟩ := List.mem_map.mp ht1
      by_cases hR : (userPutAddFn user.id (b.name.getD "")
          ((normalizePending b.pendingTasks).filter
            (fun i => !user.pendingTasks.contains i)) t0).id ∈
            user.pendingTasks.filter
              (fun i => !(normalizePending b.pendingTasks).contains i) ∧
          (userPutAddFn user.id (b.name.getD "")
            ((normalizePending b.pendingTasks).filter
              (fun i => !user.pendingTasks.contains i)) t0).assignedUser = user.id
      · rw [show userPutRemoveFn user.id _ _ = _ from if_pos hR]
        exact ⟨fun _ => rfl, fun hx => absurd rfl hx⟩
      · rw [show userPutRemoveFn user.id _ _ = _ from if_neg hR]
        by_cases hA : t0.id ∈ (normalizePending b.pendingTasks).filter
            (fun i => !user.pendingTasks.contains i)
        · rw [userPutAddFn_pos _ _ _ _ hA]
          exact ⟨fun he => absurd he huid_ne, fun _ => hself⟩
        · rw [userPutAddFn_neg _ _ _ _ hA]
          obtain ⟨c1, c2⟩ := hni t0 ht0
          exact ⟨c1, fun hx => htrans _ _ (c2 hx)⟩
    · next hadd =>
      intro t' ht'
      obtain ⟨t0, ht0, rfl⟩ := List.mem_map.mp ht'
      by_cases hR : t0.id ∈ user.pendingTasks.filter
            (fun i => !(normalizePending b.pendingTasks).contains i) ∧
          t0.assignedUser = user.id
      · rw [userPutRemoveFn_pos _ _ _ hR.1 hR.2]
        exact ⟨fun _ => rfl, fun hx => absurd rfl hx⟩
      · rw [show userPutRemoveFn user.id _ t0 = t0 from if_neg hR]
        obtain ⟨c1, c2⟩ := hni t0 ht0
        exact ⟨c1, fun hx => htrans _ _ (c2 hx)⟩
  · next hrem =>
    split
    · next hadd =>
      intro t' ht'
      obtain ⟨t0, ht0, rfl⟩ := List.mem_map.mp ht'
      by_cases hA : t0.id ∈ (normalizePending b.pendingTasks).filter
          (fun i => !user.pendingTasks.contains i)
      · rw [userPutAddFn_pos _ _ _ _ hA]
        exact ⟨fun he => absurd he huid_ne, fun _ => hself⟩
      · rw [userPutAddFn_neg _ _ _ _ hA]
        obtain ⟨c1, c2⟩ := hni t0 ht0
        exact ⟨c1, fun hx => htrans _ _ (c2 hx)⟩
    · next hadd =>
      intro t' ht'
      obtain ⟨c1, c2⟩ := hni t' ht'
      exact ⟨c1, fun hx => htrans _ _ (c2 hx)⟩

/-- C2 (amended): the assignedUserName synchronization invariant is
preserved by every successful Task POST/PUT/DELETE, User POST and User
DELETE, and by a User PUT whose body keeps the stored name; a User PUT that
changes the name is excluded, since tasks that stay assigned (ids kept in
`pendingTasks`, or completed tasks) retain the stale denormalized name. -/
theorem c2_assignedUserName_sync (s s' : Store) (op : ApiOp)
    (hwf : wellFormed s) (hni : nameInv s) (h : applyOp s op = .ok s')
    (hput : ∀ uid b, op = ApiOp.userPutOp uid b →
      ∀ u0, findUser s uid = some u0 → b.name = some u0.name) :
    nameInv s' := by
  cases op with
  | userPostOp b fid now =>
    simp only [applyOp] at h
    cases hp : userPost s b fid now with
    | error e => rw [hp] at h; simp [Except.map] at h
    | ok p =>
      rw [hp] at h
      simp only [Except.map] at h
      rw [Except.ok.injEq] at h
      subst h
      exact nameInv_userPost s b fid now p.1 p.2 hni (by rw [hp])
  | userPutOp uid b =>
    simp only [applyOp] at h
    cases hp : userPut s uid b with
    | error e => rw [hp] at h; simp [Except.map] at h
    | ok p =>
      rw [hp] at h
      simp only [Except.map] at h
      rw [Except.ok.injEq] at h
      subst h
      exact nameInv_userPut s uid b p.1 p.2 hwf hni (by rw [hp]) (hput uid b rfl)
  | userDeleteOp uid =>
    simp only [applyOp] at h
    exact nameInv_userDelete s uid s' hni h
  | taskPostOp b fid =>
    simp only [applyOp] at h
    cases hp : taskPost s b fid with
    | error e => rw [hp] at h; simp [Except.map] at h
    | ok p =>
      rw [hp] at h
      simp only [Except.map] at h
      rw [Except.ok.injEq] at h
      subst h
      exact nameInv_taskPost s b fid p.1 p.2 hni (by rw [hp])
  | taskPutOp tid b =>
    simp only [applyOp] at h
    cases hp : taskPut s tid b with
    | error e => rw [hp] at h; simp [Except.map] at h
    | ok p =>
      rw [hp] at h
      simp only [Except.map] at h
      rw [Except.ok.injEq] at h
      subst h
      exact nameInv_taskPut s tid b p.1 p.2 hni (by rw [hp])
  | taskDeleteOp tid =>
    simp only [applyOp] at h
    exact nameInv_taskDelete s tid s' hni h

theorem c2_witness :
    nameInv (Store.mk
      [{ aliceU with pendingTasks := ["t1", "t2"] }]
      [taskT1,
        { id := "t2", name := "T2", description := "", deadline := 0, completed := false,
          assignedUser := "u1", assignedUserName := "Alice" }]) :=
  c2_assignedUserName_sync demoStore _
    (ApiOp.taskPostOp
      { name := some "T2", description := none, deadline := some "0", completed := none,
        assignedUser := some "u1", assignedUserName := none } "t2")
    (by decide) (by decide) (by rfl)
    (by intro uid b hop; simp at hop)

/-- C2 counterexample: renaming a User (PUT with name "Bob", pendingTasks
unchanged) succeeds but leaves the still-assigned Task's assignedUserName at
the stale "Alice", so the invariant fails after a successful User update
that changes the User's name. -/
theorem c2_counterexample :
    nameInv demoStore ∧ wellFormed demoStore ∧
    userPut demoStore "u1"
        { name := some "Bob", email := some "a@b.com",
          pendingTasks := some (.arr ["t1"]), dateCreated := none } =
      .ok (Store.mk
        [{ id := "u1", name := "Bob", email := "a@b.com", pendingTasks := ["t1"],
           dateCreated := some 0 }]
        [taskT1],
        { id := "u1", name := "Bob", email := "a@b.com", pendingTasks := ["t1"],
          dateCreated := some 0 }) ∧
    ¬nameInv (Store.mk
      [{ id := "u1", name := "Bob", email := "a@b.com", pendingTasks := ["t1"],
         dateCreated := some 0 }]
      [taskT1]) :=
  ⟨by decide, by decide, by rfl, by decide⟩

theorem c3_witness :
    (∃ t' ∈ (Store.mk
        [{ aliceU with pendingTasks := ["t2"] }]
        [{ taskT1 with assignedUser := "", assignedUserName := "unassigned" },
          { id := "t2", name := "T2", description := "", deadline := 5, completed := false,
            assignedUser := "u1", assignedUserName := "Alice" }]).tasks,
      t'.id = "t2" ∧ t'.assignedUser = "u1" ∧ t'.assignedUserName = "Alice" ∧
        t'.completed = false) ∧
    (∃ t' ∈ (Store.mk
        [{ aliceU with pendingTasks := ["t2"] }]
        [{ taskT1 with assignedUser := "", assignedUserName := "unassigned" },
          { id := "t2", name := "T2", description := "", deadline := 5, completed := false,
            assignedUser := "u1", assignedUserName := "Alice" }]).tasks,
      t'.id = "t1" ∧ t'.assignedUser = "" ∧ t'.assignedUserName = "unassigned") := by
  have H := c3_userPut_reconciliation
    (Store.mk [aliceU]
      [taskT1,
        { id := "t2", name := "T2", description := "", deadline := 5, completed := true,
          assignedUser := "", assignedUserName := "unassigned" }])
    "u1"
    { name := some "Alice", email := some "a@b.com",
      pendingTasks := some (.arr ["t2"]), dateCreated := none }
    _ _ (by rfl) aliceU (by rfl)
  constructor
  · obtain ⟨t', hm, h1, h2, h3, h4⟩ :=
      (H { id := "t2", name := "T2", description := "", deadline := 5, completed := true,
            assignedUser := "", assignedUserName := "unassigned" }
        (by decide)).1 (by decide) (by decide)
    exact ⟨t', hm, h1, h2, h3, h4⟩
  · obtain ⟨t', hm, h1, h2, h3, -⟩ :=
      ((H taskT1 (by decide)).2 (by decide) (by decide)).1 (by decide)
    exact ⟨t', hm, h1, h2, h3⟩

end Mp3
